import Mathlib

/-!
Verification of the pose-trajectory synthesis engine of
`src/utils/pose_utils.py` (LightGaussian).

The numpy code is shallowly embedded over an arbitrary linear ordered field
so the same definitions can be evaluated exactly at rational inputs and
reasoned about at real inputs.  Square roots and trigonometric functions
(used by `normalize`, `viewmatrix` and the path generators) are passed as
explicit function parameters and instantiated with `Real.sqrt`, `Real.cos`,
`Real.sin`, `Real.log` in the theorems.  `np.linalg.eig` is modelled as an
oracle argument: the caller supplies the eigenvalue vector and eigenvector
matrix, and theorems hypothesise exactly the properties numpy guarantees
for them (the columns diagonalise the matrix and are orthonormal).
Division by zero follows the Lean convention `x / 0 = 0` where numpy would
produce `nan`; no claim below depends on the value of such a quotient
except where explicitly noted.
-/

set_option linter.unusedSectionVars false
set_option linter.unusedVariables false
set_option linter.unreachableTactic false
set_option linter.unusedTactic false

namespace PoseUtils

/-- A 3-vector with components over a field, matching a numpy length-3 array. -/
structure Vec3 (K : Type) where
  x : K
  y : K
  z : K
deriving DecidableEq, Repr

/-- A 3 by 3 matrix stored as rows, matching a numpy (3,3) array. -/
structure Mat3 (K : Type) where
  r0 : Vec3 K
  r1 : Vec3 K
  r2 : Vec3 K
deriving DecidableEq, Repr

/-- A 3 by 4 pose or transform matrix: rotation-ish 3 by 3 block plus a
translation column.  The numpy code moves between (3,4) and (4,4)
representations with `pad_poses` and `unpad_poses`; every (4,4) matrix it
builds has bottom row `[0,0,0,1]`, so a single affine representation is used
for both shapes here. -/
structure M34 (K : Type) where
  lin : Mat3 K
  t : Vec3 K
deriving DecidableEq, Repr

variable {K : Type} [LinearOrderedField K]

namespace Vec3

instance : Zero (Vec3 K) := ⟨⟨0, 0, 0⟩⟩

instance : Add (Vec3 K) := ⟨fun a b => ⟨a.x + b.x, a.y + b.y, a.z + b.z⟩⟩

instance : Sub (Vec3 K) := ⟨fun a b => ⟨a.x - b.x, a.y - b.y, a.z - b.z⟩⟩

instance : Neg (Vec3 K) := ⟨fun a => ⟨-a.x, -a.y, -a.z⟩⟩

instance : SMul K (Vec3 K) := ⟨fun c a => ⟨c * a.x, c * a.y, c * a.z⟩⟩

/-- Euclidean dot product of two 3-vectors. -/
def dot (a b : Vec3 K) : K := a.x * b.x + a.y * b.y + a.z * b.z

/-- Cross product of two 3-vectors (`np.cross`). -/
def cross (a b : Vec3 K) : Vec3 K :=
  ⟨a.y * b.z - a.z * b.y, a.z * b.x - a.x * b.z, a.x * b.y - a.y * b.x⟩

end Vec3

namespace Mat3

/-- Column 0 of a matrix. -/
def col0 (m : Mat3 K) : Vec3 K := ⟨m.r0.x, m.r1.x, m.r2.x⟩

/-- Column 1 of a matrix. -/
def col1 (m : Mat3 K) : Vec3 K := ⟨m.r0.y, m.r1.y, m.r2.y⟩

/-- Column 2 of a matrix. -/
def col2 (m : Mat3 K) : Vec3 K := ⟨m.r0.z, m.r1.z, m.r2.z⟩

/-- Build a matrix from its three columns (`np.stack([...], 1)`). -/
def ofCols (c0 c1 c2 : Vec3 K) : Mat3 K :=
  ⟨⟨c0.x, c1.x, c2.x⟩, ⟨c0.y, c1.y, c2.y⟩, ⟨c0.z, c1.z, c2.z⟩⟩

/-- Matrix transpose. -/
def tr (m : Mat3 K) : Mat3 K := ofCols m.r0 m.r1 m.r2

/-- Matrix-vector product. -/
def mulVec (m : Mat3 K) (v : Vec3 K) : Vec3 K :=
  ⟨Vec3.dot m.r0 v, Vec3.dot m.r1 v, Vec3.dot m.r2 v⟩

/-- Matrix product. -/
def mul (a b : Mat3 K) : Mat3 K :=
  ⟨⟨Vec3.dot a.r0 (col0 b), Vec3.dot a.r0 (col1 b), Vec3.dot a.r0 (col2 b)⟩,
   ⟨Vec3.dot a.r1 (col0 b), Vec3.dot a.r1 (col1 b), Vec3.dot a.r1 (col2 b)⟩,
   ⟨Vec3.dot a.r2 (col0 b), Vec3.dot a.r2 (col1 b), Vec3.dot a.r2 (col2 b)⟩⟩

instance : Mul (Mat3 K) := ⟨mul⟩

instance : One (Mat3 K) := ⟨⟨⟨1, 0, 0⟩, ⟨0, 1, 0⟩, ⟨0, 0, 1⟩⟩⟩

instance : Zero (Mat3 K) := ⟨⟨0, 0, 0⟩⟩

instance : Add (Mat3 K) := ⟨fun a b => ⟨a.r0 + b.r0, a.r1 + b.r1, a.r2 + b.r2⟩⟩

instance : Sub (Mat3 K) := ⟨fun a b => ⟨a.r0 - b.r0, a.r1 - b.r1, a.r2 - b.r2⟩⟩

instance : SMul K (Mat3 K) := ⟨fun c a => ⟨c • a.r0, c • a.r1, c • a.r2⟩⟩

/-- Diagonal matrix (`np.diag`). -/
def diag (a b c : K) : Mat3 K := ⟨⟨a, 0, 0⟩, ⟨0, b, 0⟩, ⟨0, 0, c⟩⟩

/-- Outer product of two 3-vectors (`d @ d.T` on column vectors). -/
def outer (a b : Vec3 K) : Mat3 K :=
  ⟨⟨a.x * b.x, a.x * b.y, a.x * b.z⟩,
   ⟨a.y * b.x, a.y * b.y, a.y * b.z⟩,
   ⟨a.z * b.x, a.z * b.y, a.z * b.z⟩⟩

/-- Determinant of a 3 by 3 matrix. -/
def det (m : Mat3 K) : K :=
  m.r0.x * (m.r1.y * m.r2.z - m.r1.z * m.r2.y)
    - m.r0.y * (m.r1.x * m.r2.z - m.r1.z * m.r2.x)
    + m.r0.z * (m.r1.x * m.r2.y - m.r1.y * m.r2.x)

/-- Adjugate (transposed cofactor matrix) of a 3 by 3 matrix. -/
def adj (m : Mat3 K) : Mat3 K :=
  ⟨⟨m.r1.y * m.r2.z - m.r1.z * m.r2.y,
    m.r0.z * m.r2.y - m.r0.y * m.r2.z,
    m.r0.y * m.r1.z - m.r0.z * m.r1.y⟩,
   ⟨m.r1.z * m.r2.x - m.r1.x * m.r2.z,
    m.r0.x * m.r2.z - m.r0.z * m.r2.x,
    m.r0.z * m.r1.x - m.r0.x * m.r1.z⟩,
   ⟨m.r1.x * m.r2.y - m.r1.y * m.r2.x,
    m.r0.y * m.r2.x - m.r0.x * m.r2.y,
    m.r0.x * m.r1.y - m.r0.y * m.r1.x⟩⟩

/-- Matrix inverse via the adjugate formula.  Agrees with `np.linalg.inv`
on invertible input; on singular input numpy raises `LinAlgError` while this
total model returns the zero matrix (division by a zero determinant). -/
def inv (m : Mat3 K) : Mat3 K := (1 / det m) • adj m

end Mat3

namespace M34

/-- Product of two affine matrices: the 4x4 product of the padded forms,
which again has bottom row [0,0,0,1]. -/
def comp (a b : M34 K) : M34 K := ⟨a.lin * b.lin, a.lin.mulVec b.t + a.t⟩

/-- np.linalg.inv on the padded 4x4 form of an affine matrix.  For an
invertible linear block this is the exact inverse; for a singular block it
inherits the junk value of Mat3.inv where numpy raises. -/
def inv (a : M34 K) : M34 K := ⟨Mat3.inv a.lin, -((Mat3.inv a.lin).mulVec a.t)⟩

/-- The convention flip `m[:, 1:3] *= -1` applied to a pose or to a padded
4x4 (whose bottom-row entries in columns 1 and 2 are 0): columns 1 and 2 of
the linear block are negated and the translation column is untouched. -/
def colFlipYZ (a : M34 K) : M34 K := ⟨a.lin * Mat3.diag 1 (-1) (-1), a.t⟩

end M34

/-- Sum of a list of 3-vectors. -/
def vsum (l : List (Vec3 K)) : Vec3 K := l.foldr (· + ·) 0

/-- Mean of a list of 3-vectors (`np.mean(..., axis=0)`); the empty mean is
0 here where numpy emits a nan. -/
def vmean (l : List (Vec3 K)) : Vec3 K := ((l.length : K))⁻¹ • vsum l

/-- Sum of a list of matrices. -/
def msum (l : List (Mat3 K)) : Mat3 K := l.foldr (· + ·) 0

/-- Mean of a list of matrices; the empty mean is 0 here where numpy emits
a nan. -/
def mmean (l : List (Mat3 K)) : Mat3 K := ((l.length : K))⁻¹ • msum l

/-- Mean of a list of scalars; the empty mean is 0 here where numpy emits a
nan. -/
def kmean (l : List K) : K := l.sum / (l.length : K)

/-- np.linspace(a, b, n) with inclusive endpoints: n equally spaced samples
with step (b - a) / (n - 1). -/
def linspace (a b : K) (n : ℕ) : List K :=
  (List.range n).map (fun k : ℕ => a + (b - a) * (k : K) / ((n : K) - 1))

/-- np.percentile(l, q) with the default linear interpolation: the value at
fractional rank (n - 1) * q / 100 of the ascending-sorted data. -/
def percentile (q : ℚ) (l : List K) : K :=
  let sorted := l.insertionSort (· ≤ ·)
  let pos : ℚ := q * ((l.length : ℚ) - 1) / 100
  let i : ℕ := ⌊pos⌋₊
  let g : K := ((pos - (i : ℚ) : ℚ) : K)
  match sorted.drop i with
  | [] => 0
  | [v] => v
  | v :: w :: _ => v + g * (w - v)

/-- np.argmax on a 3-vector: the first index attaining the maximum. -/
def argmax3 (v : Vec3 K) : Fin 3 :=
  if v.y ≤ v.x ∧ v.z ≤ v.x then 0 else if v.z ≤ v.y then 1 else 2

/-- np.sign for a scalar. -/
def npSign (x : K) : K := if 0 < x then 1 else if x < 0 then -1 else 0

/-- Row i of np.eye(3). -/
def stdBasis : Fin 3 → Vec3 K
  | 0 => ⟨1, 0, 0⟩
  | 1 => ⟨0, 1, 0⟩
  | 2 => ⟨0, 0, 1⟩

/-- Component of a 3-vector selected by index. -/
def comp3 (v : Vec3 K) : Fin 3 → K
  | 0 => v.x
  | 1 => v.y
  | 2 => v.z

/-- Absolute values of the components of a 3-vector (`np.abs`). -/
def vabs (v : Vec3 K) : Vec3 K := ⟨|v.x|, |v.y|, |v.z|⟩

/-- The machine epsilon of np.float32, the exact value of
np.finfo(np.float32).eps. -/
def f32eps : K := 1 / 8388608

/-- An external camera view object as read by the generators: a rotation
matrix R, a translation vector T and the focal-equivalent field FoVx. -/
structure View (K : Type) where
  R : Mat3 K
  T : Vec3 K
  FoVx : K
deriving DecidableEq, Repr

/-- The result of np.linalg.eig on the 3x3 covariance matrix, supplied as
an oracle: eigval is the eigenvalue vector, eigvec has the eigenvectors as
columns.  Theorems hypothesise the properties numpy guarantees of it. -/
structure Eig3 (K : Type) where
  val : Vec3 K
  vec : Mat3 K
deriving DecidableEq, Repr

/-- Whether an eig oracle is a legitimate result of np.linalg.eig on the
symmetric matrix cov: the columns are orthonormal and diagonalise cov. -/
def Eig3.Valid (e : Eig3 K) (cov : Mat3 K) : Prop :=
  Mat3.tr e.vec * e.vec = 1 ∧
    cov = e.vec * Mat3.diag e.val.x e.val.y e.val.z * Mat3.tr e.vec

instance (e : Eig3 K) (cov : Mat3 K) : Decidable (e.Valid cov) :=
  instDecidableAnd

/-! Embeddings of the functions of src/utils/pose_utils.py, in source
order.  Functions of the file that the claims do not touch (poses_avg,
poses_avg_fixed_center, recenter_poses, the first generate_spiral_path,
render_path_spiral, generate_spherical_sample_path, the torch-based pose
perturbation helpers) are not embedded. -/

/-- normalize(x) = x / np.linalg.norm(x); the norm is sqrt of the dot
product, passed in as a function parameter. -/
def normalize (sqrt : K → K) (v : Vec3 K) : Vec3 K :=
  (1 / sqrt (Vec3.dot v v)) • v

/-- viewmatrix(z, up, pos): orthonormal frame construction with two cross
products, assembled column-wise with pos as the translation column. -/
def viewmatrix (sqrt : K → K) (z up pos : Vec3 K) : M34 K :=
  let vec2 := normalize sqrt z
  let vec1_avg := up
  let vec0 := normalize sqrt (Vec3.cross vec1_avg vec2)
  let vec1 := normalize sqrt (Vec3.cross vec2 vec0)
  ⟨Mat3.ofCols vec0 vec1 vec2, pos⟩

/-- get_focal(camera) = camera.FoVx. -/
def get_focal (camera : View K) : K := camera.FoVx

/-- np.cumsum on a 1-D array, with a running accumulator. -/
def cumsumAux (acc : K) : List K → List K
  | [] => []
  | x :: xs => (acc + x) :: cumsumAux (acc + x) xs

/-- np.cumsum on a 1-D array. -/
def cumsum (l : List K) : List K := cumsumAux 0 l

/-- integrate_weights_np(w): cw = np.minimum(1, np.cumsum(w[:-1])) framed
by an exact 0 and an exact 1. -/
def integrate_weights_np (w : List K) : List K :=
  let cw := (cumsum w.dropLast).map (fun c => min 1 c)
  (0 : K) :: (cw ++ [1])

/-- np.interp(u, xp, fp) at a single query point u, for the knot list
xp.zip fp.  Outside the knot range the boundary value is returned, inside
a segment the value is linearly interpolated; coincident knots divide by
zero where numpy produces non-finite slopes. -/
def interp1 (u : K) : List (K × K) → K
  | [] => 0
  | [(_, y0)] => y0
  | (x0, y0) :: (x1, y1) :: rest =>
      if u ≤ x0 then y0
      else if u ≤ x1 then y0 + (u - x0) * (y1 - y0) / (x1 - x0)
      else interp1 u ((x1, y1) :: rest)

/-- invert_cdf_np(u, t, w_logits): softmax the logits through the supplied
exponential, integrate to a CDF and interpolate t against it at each u. -/
def invert_cdf_np (expf : K → K) (u t w_logits : List K) : List K :=
  let wexp := w_logits.map expf
  let w := wexp.map (fun x => x / wexp.sum)
  let cw := integrate_weights_np w
  u.map (fun ui => interp1 ui (cw.zip t))

/-- sample_np for the deterministic case rand = False used by the ellipse
generator (the stochastic branch draws np.random values and is outside this
deterministic model). -/
def sample_np (expf : K → K) (t w_logits : List K) (num_samples : ℕ)
    (deterministic_center : Bool) : List K :=
  let eps : K := f32eps
  let u :=
    if deterministic_center then
      let pad : K := 1 / (2 * (num_samples : K))
      linspace pad (1 - pad - eps) num_samples
    else
      linspace 0 (1 - eps) num_samples
  invert_cdf_np expf u t w_logits

/-- focus_point_fn(poses): least-squares nearest point to the viewing axes,
solved through the explicit inverse of the averaged normal matrix. -/
def focus_point_fn (poses : List (M34 K)) : Vec3 K :=
  let directions := poses.map (fun p => Mat3.col2 p.lin)
  let origins := poses.map (fun p => p.t)
  let m := directions.map (fun d => (1 : Mat3 K) - Mat3.outer d d)
  let mt_m := m.map (fun mi => Mat3.tr mi * mi)
  let lhs := mmean mt_m
  let rhs := vmean ((mt_m.zip origins).map (fun pr => pr.1.mulVec pr.2))
  (Mat3.inv lhs).mulVec rhs

/-- average_pose(poses): mean position, z-axis and up vector fed through
viewmatrix. -/
def average_pose (sqrt : K → K) (poses : List (M34 K)) : M34 K :=
  let position := vmean (poses.map (fun p => p.t))
  let z_axis := vmean (poses.map (fun p => Mat3.col2 p.lin))
  let up := vmean (poses.map (fun p => Mat3.col1 p.lin))
  viewmatrix sqrt z_axis up position

/-- pad_poses: appending the homogeneous bottom row.  The affine
representation already carries it implicitly, so this is the identity. -/
def pad_poses (p : M34 K) : M34 K := p

/-- unpad_poses: removing the homogeneous bottom row; identity in the
affine representation. -/
def unpad_poses (p : M34 K) : M34 K := p

/-- The shared ingestion step of every generator: build the 4x4
[[view.R.T, view.T], [0, 1]], invert it, and apply the convention flip
tmp_view[:, 1:3] *= -1. -/
def viewToPose (v : View K) : M34 K :=
  M34.colFlipYZ (M34.inv ⟨Mat3.tr v.R, v.T⟩)

/-- np.argsort on 3 values, ascending and stable, returning the index
triple. -/
def argsort3 (a b c : K) : Fin 3 × Fin 3 × Fin 3 :=
  if a ≤ b then
    if b ≤ c then (0, 1, 2)
    else if a ≤ c then (0, 2, 1)
    else (2, 0, 1)
  else
    if a ≤ c then (1, 0, 2)
    else if b ≤ c then (1, 2, 0)
    else (2, 1, 0)

/-- Column of a matrix selected by index. -/
def colOf (m : Mat3 K) : Fin 3 → Vec3 K
  | 0 => Mat3.col0 m
  | 1 => Mat3.col1 m
  | 2 => Mat3.col2 m

/-- eigvec[:, inds] with inds = np.argsort(eigval)[::-1]: eigenvector
columns reordered by descending eigenvalue. -/
def sortEigvec (e : Eig3 K) : Mat3 K :=
  let s := argsort3 e.val.x e.val.y e.val.z
  Mat3.ofCols (colOf e.vec s.2.2) (colOf e.vec s.2.1) (colOf e.vec s.1)

/-- Mean translation of a pose set (t.mean(axis=0) in
transform_poses_pca). -/
def pcaMean (poses : List (M34 K)) : Vec3 K := vmean (poses.map (fun p => p.t))

/-- The matrix t.T @ t of the centered translations whose
eigendecomposition transform_poses_pca requests. -/
def pcaCov (poses : List (M34 K)) : Mat3 K :=
  let tm := pcaMean poses
  msum (poses.map (fun p => Mat3.outer (p.t - tm) (p.t - tm)))

/-- rot = eigvec.T with the handedness fix: a negative determinant is
repaired by negating the third row with diag(1, 1, -1). -/
def pcaRot (e : Eig3 K) : Mat3 K :=
  let rot := Mat3.tr (sortEigvec e)
  if Mat3.det rot < 0 then Mat3.diag 1 1 (-1) * rot else rot

/-- transform = [rot | rot @ -t_mean] before the y/z flip. -/
def pcaAff0 (e : Eig3 K) (poses : List (M34 K)) : M34 K :=
  ⟨pcaRot e, (pcaRot e).mulVec (-(pcaMean poses))⟩

/-- poses_recentered = unpad_poses(transform @ pad_poses(poses)) before the
y/z flip. -/
def pcaRec0 (e : Eig3 K) (poses : List (M34 K)) : List (M34 K) :=
  poses.map (fun p => unpad_poses (M34.comp (pcaAff0 e poses) (pad_poses p)))

/-- The y/z flip condition: entry [2, 1] of poses_recentered.mean(axis=0)
is negative (the mean of a 3x4 stack, entry row 2 column 1, lies in the
rotation block). -/
def pcaFlip (e : Eig3 K) (poses : List (M34 K)) : Prop :=
  (mmean ((pcaRec0 e poses).map (fun p => p.lin))).r2.y < 0

instance (e : Eig3 K) (poses : List (M34 K)) : Decidable (pcaFlip e poses) :=
  inferInstanceAs (Decidable (_ < _))

/-- poses_recentered after the conditional global y/z flip
np.diag([1, -1, -1]) @ poses_recentered. -/
def pcaRec1 (e : Eig3 K) (poses : List (M34 K)) : List (M34 K) :=
  if pcaFlip e poses then
    (pcaRec0 e poses).map (fun p => M34.comp ⟨Mat3.diag 1 (-1) (-1), 0⟩ p)
  else pcaRec0 e poses

/-- The running transform after the conditional y/z flip
np.diag([1, -1, -1, 1]) @ transform. -/
def pcaAff1 (e : Eig3 K) (poses : List (M34 K)) : M34 K :=
  if pcaFlip e poses then
    M34.comp ⟨Mat3.diag 1 (-1) (-1), 0⟩ (pcaAff0 e poses)
  else pcaAff0 e poses

/-- np.max(np.abs(poses_recentered[:, :3, 3])): the largest absolute
translation coordinate.  The fold base 0 only matters for the empty list,
where numpy raises. -/
def maxAbsT (l : List (M34 K)) : K :=
  l.foldr (fun p acc => max (max |p.t.x| (max |p.t.y| |p.t.z|)) acc) 0

/-- scale_factor = 1 / max |t|. -/
def pcaScale (e : Eig3 K) (poses : List (M34 K)) : K :=
  1 / maxAbsT (pcaRec1 e poses)

/-- transform_poses_pca(poses): recentred poses (translations scaled by
scale_factor; rotation blocks untouched by the scaling, as in the source)
and the accumulated 4x4 transform
diag([s, s, s, 1]) @ (optional y/z flip) @ [rot | rot @ -t_mean]. -/
def transform_poses_pca (e : Eig3 K) (poses : List (M34 K)) :
    List (M34 K) × M34 K :=
  let s := pcaScale e poses
  ((pcaRec1 e poses).map (fun p => ⟨p.lin, s • p.t⟩),
    M34.comp ⟨Mat3.diag s s s, 0⟩ (pcaAff1 e poses))

/-! Stages of generate_ellipse_path, in the order of the source.  The
transcendental functions and the constant 2 * pi are parameters, bundled in
a context structure so every stage sees the same instantiation. -/

/-- The ambient functions a trajectory generator needs: square root,
cosine, sine, natural logarithm and exponential, and the constant
2 * pi. -/
structure TrigCtx (K : Type) where
  sqrt : K → K
  cos : K → K
  sin : K → K
  log : K → K
  expf : K → K
  twoPi : K

/-- The converted pose stack of generate_ellipse_path. -/
def ellPoses (views : List (View K)) : List (M34 K) := views.map viewToPose

/-- The transform_poses_pca call of generate_ellipse_path. -/
def ellPca (e : Eig3 K) (views : List (View K)) : List (M34 K) × M34 K :=
  transform_poses_pca e (ellPoses views)

/-- center = focus_point_fn(poses) on the recentred poses. -/
def ellCenter (e : Eig3 K) (views : List (View K)) : Vec3 K :=
  focus_point_fn (ellPca e views).1

/-- offset = [center_x, center_y, center_z * 0]. -/
def ellOffset (e : Eig3 K) (views : List (View K)) : Vec3 K :=
  ⟨(ellCenter e views).x, (ellCenter e views).y, (ellCenter e views).z * 0⟩

/-- sc = np.percentile(np.abs(t - offset), 90, axis=0). -/
def ellSc (e : Eig3 K) (views : List (View K)) : Vec3 K :=
  let ts := (ellPca e views).1.map (fun p => vabs (p.t - ellOffset e views))
  ⟨percentile 90 (ts.map (fun v => v.x)),
   percentile 90 (ts.map (fun v => v.y)),
   percentile 90 (ts.map (fun v => v.z))⟩

/-- low = -sc + offset. -/
def ellLow (e : Eig3 K) (views : List (View K)) : Vec3 K :=
  -ellSc e views + ellOffset e views

/-- high = sc + offset. -/
def ellHigh (e : Eig3 K) (views : List (View K)) : Vec3 K :=
  ellSc e views + ellOffset e views

/-- z_low = np.percentile(t, 10, axis=0). -/
def ellZlow (e : Eig3 K) (views : List (View K)) : Vec3 K :=
  let ts := (ellPca e views).1.map (fun p => p.t)
  ⟨percentile 10 (ts.map (fun v => v.x)),
   percentile 10 (ts.map (fun v => v.y)),
   percentile 10 (ts.map (fun v => v.z))⟩

/-- z_high = np.percentile(t, 90, axis=0). -/
def ellZhigh (e : Eig3 K) (views : List (View K)) : Vec3 K :=
  let ts := (ellPca e views).1.map (fun p => p.t)
  ⟨percentile 90 (ts.map (fun v => v.x)),
   percentile 90 (ts.map (fun v => v.y)),
   percentile 90 (ts.map (fun v => v.z))⟩

/-- get_positions(theta) of generate_ellipse_path. -/
def ellGetPos (c : TrigCtx K) (e : Eig3 K) (views : List (View K))
    (z_variation z_phase : K) (theta : K) : Vec3 K :=
  let low := ellLow e views
  let high := ellHigh e views
  let z_low := ellZlow e views
  let z_high := ellZhigh e views
  ⟨low.x + (high - low).x * (c.cos theta * (1/2) + 1/2),
   low.y + (high - low).y * (c.sin theta * (1/2) + 1/2),
   z_variation * (z_low.z + (z_high - z_low).z *
     (c.cos (theta + c.twoPi * z_phase) * (1/2) + 1/2))⟩

/-- theta = np.linspace(0, 2 pi, n_frames + 1, endpoint=True). -/
def ellThetas (c : TrigCtx K) (n_frames : ℕ) : List K :=
  linspace 0 c.twoPi (n_frames + 1)

/-- The sampled positions, after the optional constant-speed resampling of
theta, with the duplicated last position dropped. -/
def ellPositions (c : TrigCtx K) (e : Eig3 K) (views : List (View K))
    (n_frames : ℕ) (const_speed : Bool) (z_variation z_phase : K) :
    List (Vec3 K) :=
  let theta := ellThetas c n_frames
  let positions := theta.map (ellGetPos c e views z_variation z_phase)
  let positions :=
    if const_speed then
      let lengths := (positions.zip positions.tail).map
        (fun pr => c.sqrt (Vec3.dot (pr.2 - pr.1) (pr.2 - pr.1)))
      let theta2 := sample_np c.expf theta (lengths.map c.log) (n_frames + 1) false
      theta2.map (ellGetPos c e views z_variation z_phase)
    else positions
  positions.dropLast

/-- avg_up = normalize(mean of the pose up columns). -/
def ellAvgUp (c : TrigCtx K) (e : Eig3 K) (views : List (View K)) : Vec3 K :=
  let au := vmean ((ellPca e views).1.map (fun p => Mat3.col1 p.lin))
  (1 / c.sqrt (Vec3.dot au au)) • au

/-- up = np.eye(3)[argmax |avg_up|] * sign(avg_up[argmax]). -/
def ellUp (c : TrigCtx K) (e : Eig3 K) (views : List (View K)) : Vec3 K :=
  let au := ellAvgUp c e views
  let ind := argmax3 (vabs au)
  npSign (comp3 au ind) • stdBasis ind

/-- One iteration of the render loop of generate_ellipse_path:
viewmatrix, inverse PCA transform, convention flip, final inversion. -/
def ellRenderOne (c : TrigCtx K) (transform : M34 K) (center up p : Vec3 K) :
    M34 K :=
  let render1 := viewmatrix c.sqrt (p - center) up p
  let render2 := M34.comp (M34.inv transform) render1
  let render3 := M34.colFlipYZ render2
  M34.inv render3

/-- generate_ellipse_path(views, n_frames, const_speed, z_variation,
z_phase). -/
def generate_ellipse_path (c : TrigCtx K) (e : Eig3 K)
    (views : List (View K)) (n_frames : ℕ) (const_speed : Bool)
    (z_variation z_phase : K) : List (M34 K) :=
  (ellPositions c e views n_frames const_speed z_variation z_phase).map
    (ellRenderOne c (ellPca e views).2 (ellCenter e views) (ellUp c e views))

/-- The focal depth used by the second generate_spiral_path overload
(src lines 563-597, the variant whose focal parameter is immediately
overwritten): the loop body runs focal += get_focal(views[0]) once per
view and focal /= len(views) follows, so the result is the focal of the
first view, whatever the parameter and the other views are.  The empty
list yields 0 here where python raises ZeroDivisionError. -/
def spiralPathFocal (views : List (View K)) : K :=
  match views with
  | [] => 0
  | v0 :: _ =>
      (views.foldl (fun acc _ => acc + get_focal v0) 0) / (views.length : K)

/-- min_line_dist(rays_o, rays_d) of generate_spherify_path: the
least-squares nearest point to the viewing rays. -/
def min_line_dist (rays_o rays_d : List (Vec3 K)) : Vec3 K :=
  let A_i := rays_d.map (fun d => (1 : Mat3 K) - Mat3.outer d d)
  let b_i := (A_i.zip rays_o).map (fun pr => -(pr.1.mulVec pr.2))
  Neg.neg ((Mat3.inv (mmean (A_i.map (fun A => Mat3.tr A * A)))).mulVec (vmean b_i))

/-- The converted pose stack of generate_spherify_path. -/
def sphPoses (views : List (View K)) : List (M34 K) := views.map viewToPose

/-- The c2w frame generate_spherify_path builds from the ray center and the
mean offset direction; columns are stacked as [vec1, vec2, vec0, pos]. -/
def sphC2w (c : TrigCtx K) (views : List (View K)) : M34 K :=
  let poses := sphPoses views
  let rays_d := poses.map (fun p => Mat3.col2 p.lin)
  let rays_o := poses.map (fun p => p.t)
  let center := min_line_dist rays_o rays_d
  let up := vmean (poses.map (fun p => p.t - center))
  let vec0 := normalize c.sqrt up
  let vec1 := normalize c.sqrt (Vec3.cross ⟨1/10, 2/10, 3/10⟩ vec0)
  let vec2 := normalize c.sqrt (Vec3.cross vec0 vec1)
  ⟨Mat3.ofCols vec1 vec2 vec0, center⟩

/-- poses_reset = inv(p34_to_44(c2w)) @ p34_to_44(poses). -/
def sphReset (c : TrigCtx K) (views : List (View K)) : List (M34 K) :=
  (sphPoses views).map (fun p => M34.comp (M34.inv (sphC2w c views)) p)

/-- rad = sqrt(mean(sum(square(translations), -1))). -/
def sphRad (c : TrigCtx K) (views : List (View K)) : K :=
  c.sqrt (kmean ((sphReset c views).map (fun p => Vec3.dot p.t p.t)))

/-- poses_reset after the uniform rescale by sc = 1 / rad. -/
def sphResetScaled (c : TrigCtx K) (views : List (View K)) : List (M34 K) :=
  let sc := 1 / sphRad c views
  (sphReset c views).map (fun p => ⟨p.lin, sc • p.t⟩)

/-- rad after the rescale rad *= sc. -/
def sphRadScaled (c : TrigCtx K) (views : List (View K)) : K :=
  sphRad c views * (1 / sphRad c views)

/-- zh = centroid z of the rescaled translations. -/
def sphZh (c : TrigCtx K) (views : List (View K)) : K :=
  (vmean ((sphResetScaled c views).map (fun p => p.t))).z

/-- The radicand rad^2 - zh^2 under the square root that defines
radcircle. -/
def sphRadicand (c : TrigCtx K) (views : List (View K)) : K :=
  sphRadScaled c views ^ 2 - sphZh c views ^ 2

/-- radcircle = sqrt(rad^2 - zh^2). -/
def sphRadcircle (c : TrigCtx K) (views : List (View K)) : K :=
  c.sqrt (sphRadicand c views)

/-- One frame of the circular orbit of generate_spherify_path. -/
def sphFrame (c : TrigCtx K) (radcircle zh : K) (th : K) : M34 K :=
  let camorigin : Vec3 K := ⟨radcircle * c.cos th, radcircle * c.sin th, zh⟩
  let up : Vec3 K := ⟨0, 0, -1⟩
  let vec2 := normalize c.sqrt camorigin
  let vec0 := normalize c.sqrt (Vec3.cross vec2 up)
  let vec1 := normalize c.sqrt (Vec3.cross vec2 vec0)
  ⟨Mat3.ofCols vec0 vec1 vec2, camorigin⟩

/-- generate_spherify_path(views): 120 frames over the inclusive angle grid
np.linspace(0, 2 pi, 120). -/
def generate_spherify_path (c : TrigCtx K) (views : List (View K)) :
    List (M34 K) :=
  (linspace 0 c.twoPi 120).map
    (sphFrame c (sphRadcircle c views) (sphZh c views))


/-- A concrete two-pose set: identity rotations, translations (2,0,0) and
(-2,0,0).  Its centered covariance is diag(8,0,0). -/
def pcaExPoses : List (M34 ℚ) := [⟨1, ⟨2, 0, 0⟩⟩, ⟨1, ⟨-2, 0, 0⟩⟩]

/-- The eig oracle for pcaExPoses: np.linalg.eig(diag(8,0,0)) returns the
eigenvalues (8,0,0) with the identity eigenvector matrix. -/
def pcaExEig : Eig3 ℚ := ⟨⟨8, 0, 0⟩, 1⟩

/-- The four-pose focus scenario: cameras at the corners of the unit square
centered at the origin of the XY plane, each viewing axis (rotation column
2) the unit vector pointing from the camera at the origin, the other two
columns an orthonormal completion.  The parameter s stands for sqrt 2
(the unit in-plane axes have entries 1 / sqrt 2 = s / 2). -/
def squarePoses (s : K) : List (M34 K) :=
  [⟨Mat3.ofCols ⟨s/2, -(s/2), 0⟩ ⟨0, 0, 1⟩ ⟨-(s/2), -(s/2), 0⟩,
     ⟨1/2, 1/2, 0⟩⟩,
   ⟨Mat3.ofCols ⟨-(s/2), s/2, 0⟩ ⟨0, 0, 1⟩ ⟨s/2, s/2, 0⟩,
     ⟨-(1/2), -(1/2), 0⟩⟩,
   ⟨Mat3.ofCols ⟨-(s/2), -(s/2), 0⟩ ⟨0, 0, 1⟩ ⟨-(s/2), s/2, 0⟩,
     ⟨1/2, -(1/2), 0⟩⟩,
   ⟨Mat3.ofCols ⟨s/2, s/2, 0⟩ ⟨0, 0, 1⟩ ⟨s/2, -(s/2), 0⟩,
     ⟨-(1/2), 1/2, 0⟩⟩]

/-- A concrete three-view input for generate_ellipse_path: the derived
camera-to-world poses sit at (2,1,0), (-2,1,0) and (0,-2,0) with
orthonormal rotation blocks, so the maximal absolute translation
coordinate is 2 and the PCA scale factor is 1/2. -/
def ellExViews : List (View K) :=
  [⟨⟨⟨1, 0, 0⟩, ⟨0, -1, 0⟩, ⟨0, 0, -1⟩⟩, ⟨-2, 1, 0⟩, 1⟩,
   ⟨⟨⟨3/5, 0, -(4/5)⟩, ⟨0, -1, 0⟩, ⟨-(4/5), 0, -(3/5)⟩⟩, ⟨6/5, 1, -(8/5)⟩, 1⟩,
   ⟨⟨⟨3/5, 0, 4/5⟩, ⟨0, -1, 0⟩, ⟨4/5, 0, -(3/5)⟩⟩, ⟨0, -2, 0⟩, 1⟩]

/-- A valid eig oracle for the covariance of the ellExViews poses: the
centred translations have covariance diag(8, 6, 0), with the standard
basis as eigenvectors. -/
def ellExEig : Eig3 K := ⟨⟨8, 6, 0⟩, 1⟩

/-- Orthogonality of a 3 by 3 matrix: the columns are orthonormal.  For
square matrices this forces orthonormal rows as well
(Mat3.Orth.mul_tr below). -/
def Mat3.Orth (m : Mat3 K) : Prop := Mat3.tr m * m = 1

instance (m : Mat3 K) : Decidable m.Orth :=
  inferInstanceAs (Decidable (_ = _))

/-! Algebraic lemmas about the embedded linear algebra. -/

namespace Vec3

@[simp] theorem zero_def : (0 : Vec3 K) = ⟨0, 0, 0⟩ := rfl

@[simp] theorem add_def (a b : Vec3 K) :
    a + b = ⟨a.x + b.x, a.y + b.y, a.z + b.z⟩ := rfl

@[simp] theorem sub_def (a b : Vec3 K) :
    a - b = ⟨a.x - b.x, a.y - b.y, a.z - b.z⟩ := rfl

@[simp] theorem neg_def (a : Vec3 K) : -a = ⟨-a.x, -a.y, -a.z⟩ := rfl

@[simp] theorem smul_def (c : K) (a : Vec3 K) :
    c • a = ⟨c * a.x, c * a.y, c * a.z⟩ := rfl

theorem ext_iff {a b : Vec3 K} : a = b ↔ a.x = b.x ∧ a.y = b.y ∧ a.z = b.z := by
  constructor
  · rintro rfl; exact ⟨rfl, rfl, rfl⟩
  · rcases a with ⟨ax, ay, az⟩
    rcases b with ⟨bx, by', bz⟩
    rintro ⟨h1, h2, h3⟩
    simp_all

theorem dot_comm (a b : Vec3 K) : dot a b = dot b a := by
  simp [dot]; ring

theorem dot_nonneg_self (a : Vec3 K) : 0 ≤ dot a a := by
  have hx := mul_self_nonneg a.x
  have hy := mul_self_nonneg a.y
  have hz := mul_self_nonneg a.z
  simp only [dot]; linarith

theorem dot_self_eq_zero_iff (a : Vec3 K) : dot a a = 0 ↔ a = 0 := by
  constructor
  · intro h
    have hx := mul_self_nonneg a.x
    have hy := mul_self_nonneg a.y
    have hz := mul_self_nonneg a.z
    have hx0 : a.x * a.x = 0 := by simp only [dot] at h; nlinarith
    have hy0 : a.y * a.y = 0 := by simp only [dot] at h; nlinarith
    have hz0 : a.z * a.z = 0 := by simp only [dot] at h; nlinarith
    rw [ext_iff]
    exact ⟨mul_self_eq_zero.mp hx0, mul_self_eq_zero.mp hy0, mul_self_eq_zero.mp hz0⟩
  · rintro rfl; simp [dot]

end Vec3

namespace Mat3

@[simp] theorem mul_def (a b : Mat3 K) : a * b = mul a b := rfl

@[simp] theorem add_def_mat (a b : Mat3 K) :
    a + b = ⟨a.r0 + b.r0, a.r1 + b.r1, a.r2 + b.r2⟩ := rfl

@[simp] theorem sub_def_mat (a b : Mat3 K) :
    a - b = ⟨a.r0 - b.r0, a.r1 - b.r1, a.r2 - b.r2⟩ := rfl

@[simp] theorem zero_def_mat : (0 : Mat3 K) = ⟨0, 0, 0⟩ := rfl

@[simp] theorem one_def : (1 : Mat3 K) = ⟨⟨1, 0, 0⟩, ⟨0, 1, 0⟩, ⟨0, 0, 1⟩⟩ := rfl

@[simp] theorem smul_def_mat (c : K) (a : Mat3 K) :
    c • a = ⟨c • a.r0, c • a.r1, c • a.r2⟩ := rfl

theorem ext_iff_mat {a b : Mat3 K} : a = b ↔ a.r0 = b.r0 ∧ a.r1 = b.r1 ∧ a.r2 = b.r2 := by
  constructor
  · rintro rfl; exact ⟨rfl, rfl, rfl⟩
  · rcases a with ⟨a0, a1, a2⟩
    rcases b with ⟨b0, b1, b2⟩
    rintro ⟨h1, h2, h3⟩
    simp_all

theorem mul_assoc (a b c : Mat3 K) : a * b * c = a * (b * c) := by
  rw [ext_iff_mat]
  refine ⟨?_, ?_, ?_⟩ <;> rw [Vec3.ext_iff] <;>
    refine ⟨?_, ?_, ?_⟩ <;>
    (simp only [mul_def, one_def, smul_def_mat, Vec3.smul_def, mul, Vec3.dot, col0, col1, col2]; ring)

theorem one_mul (a : Mat3 K) : 1 * a = a := by
  rw [ext_iff_mat]
  refine ⟨?_, ?_, ?_⟩ <;> rw [Vec3.ext_iff] <;>
    refine ⟨?_, ?_, ?_⟩ <;>
    (simp only [mul_def, one_def, smul_def_mat, Vec3.smul_def, mul, Vec3.dot, col0, col1, col2]; ring)

theorem mul_one (a : Mat3 K) : a * 1 = a := by
  rw [ext_iff_mat]
  refine ⟨?_, ?_, ?_⟩ <;> rw [Vec3.ext_iff] <;>
    refine ⟨?_, ?_, ?_⟩ <;>
    (simp only [mul_def, one_def, smul_def_mat, Vec3.smul_def, mul, Vec3.dot, col0, col1, col2]; ring)

theorem mul_adj (m : Mat3 K) : m * adj m = det m • (1 : Mat3 K) := by
  rw [ext_iff_mat]
  refine ⟨?_, ?_, ?_⟩ <;> rw [Vec3.ext_iff] <;>
    refine ⟨?_, ?_, ?_⟩ <;>
    (simp only [mul_def, one_def, smul_def_mat, Vec3.smul_def, mul, adj, det, Vec3.dot, col0, col1, col2]; ring)

theorem adj_mul (m : Mat3 K) : adj m * m = det m • (1 : Mat3 K) := by
  rw [ext_iff_mat]
  refine ⟨?_, ?_, ?_⟩ <;> rw [Vec3.ext_iff] <;>
    refine ⟨?_, ?_, ?_⟩ <;>
    (simp only [mul_def, one_def, smul_def_mat, Vec3.smul_def, mul, adj, det, Vec3.dot, col0, col1, col2]; ring)

theorem det_mul (a b : Mat3 K) : det (a * b) = det a * det b := by
  simp only [mul_def, mul, det, Vec3.dot, col0, col1, col2]
  ring

theorem smul_mul (c : K) (a b : Mat3 K) : (c • a) * b = c • (a * b) := by
  rw [ext_iff_mat]
  refine ⟨?_, ?_, ?_⟩ <;> rw [Vec3.ext_iff] <;>
    refine ⟨?_, ?_, ?_⟩ <;>
    (simp only [mul_def, one_def, smul_def_mat, Vec3.smul_def, mul, Vec3.dot, col0, col1, col2]; ring)

theorem mul_smul_right (c : K) (a b : Mat3 K) : a * (c • b) = c • (a * b) := by
  rw [ext_iff_mat]
  refine ⟨?_, ?_, ?_⟩ <;> rw [Vec3.ext_iff] <;>
    refine ⟨?_, ?_, ?_⟩ <;>
    (simp only [mul_def, one_def, smul_def_mat, Vec3.smul_def, mul, Vec3.dot, col0, col1, col2]; ring)

theorem smul_smul_mat (c d : K) (a : Mat3 K) : c • d • a = (c * d) • a := by
  rw [ext_iff_mat]
  refine ⟨?_, ?_, ?_⟩ <;> rw [Vec3.ext_iff] <;>
    refine ⟨?_, ?_, ?_⟩ <;> (simp only [smul_def_mat, Vec3.smul_def]; ring)

theorem one_smul_mat (a : Mat3 K) : (1 : K) • a = a := by
  rw [ext_iff_mat]
  refine ⟨?_, ?_, ?_⟩ <;> rw [Vec3.ext_iff] <;>
    refine ⟨?_, ?_, ?_⟩ <;> (simp only [smul_def_mat, Vec3.smul_def]; ring)

theorem tr_mul (a b : Mat3 K) : tr (a * b) = tr b * tr a := by
  rw [ext_iff_mat]
  refine ⟨?_, ?_, ?_⟩ <;> rw [Vec3.ext_iff] <;>
    refine ⟨?_, ?_, ?_⟩ <;>
    (simp only [mul_def, tr, ofCols, mul, Vec3.dot, col0, col1, col2]; ring)

theorem tr_tr (a : Mat3 K) : tr (tr a) = a := by
  rw [ext_iff_mat]
  refine ⟨?_, ?_, ?_⟩ <;> rw [Vec3.ext_iff] <;>
    refine ⟨?_, ?_, ?_⟩ <;> simp only [tr, ofCols]

theorem mulVec_mulVec (a b : Mat3 K) (v : Vec3 K) :
    mulVec a (mulVec b v) = mulVec (a * b) v := by
  rw [Vec3.ext_iff]
  refine ⟨?_, ?_, ?_⟩ <;>
    (simp only [mul_def, mulVec, mul, Vec3.dot, col0, col1, col2]; ring)

theorem det_one : det (1 : Mat3 K) = 1 := by
  simp only [one_def, det]
  ring

/-- A matrix with a left inverse is invertible from the right as well:
left inverses of square matrices are two-sided. -/
theorem mul_eq_one_of_mul_eq_one {a b : Mat3 K} (h : a * b = 1) : b * a = 1 := by
  have hdet : det a * det b = 1 := by
    have hd := det_mul a b
    rw [h, det_one] at hd
    exact hd.symm
  have hdetb : det b ≠ 0 := by
    intro h0
    rw [h0, mul_zero] at hdet
    exact one_ne_zero hdet.symm
  have hbc : b * ((det b)⁻¹ • adj b) = 1 := by
    rw [mul_smul_right, mul_adj, smul_smul_mat, inv_mul_cancel₀ hdetb, one_smul_mat]
  have hcb : ((det b)⁻¹ • adj b) * b = 1 := by
    rw [smul_mul, adj_mul, smul_smul_mat, inv_mul_cancel₀ hdetb, one_smul_mat]
  have ha : a = (det b)⁻¹ • adj b := by
    calc a = a * 1 := (mul_one a).symm
      _ = a * (b * ((det b)⁻¹ • adj b)) := by rw [hbc]
      _ = a * b * ((det b)⁻¹ • adj b) := (mul_assoc _ _ _).symm
      _ = (det b)⁻¹ • adj b := by rw [h, one_mul]
  rw [ha]
  exact hbc

/-- Uniqueness of inverses: if `c * m = 1` then the adjugate formula inverse
computes `c`. -/
theorem inv_eq_of_mul_eq_one {c m : Mat3 K} (h : c * m = 1) : inv m = c := by
  have hdet : det c * det m = 1 := by
    have hd := det_mul c m
    rw [h, det_one] at hd
    exact hd.symm
  have hdetm : det m ≠ 0 := by
    intro h0
    rw [h0, mul_zero] at hdet
    exact one_ne_zero hdet.symm
  have hmi : m * inv m = 1 := by
    show m * ((1 / det m) • adj m) = 1
    rw [mul_smul_right, mul_adj, smul_smul_mat, one_div, inv_mul_cancel₀ hdetm,
      one_smul_mat]
  calc inv m = 1 * inv m := (one_mul _).symm
    _ = c * m * inv m := by rw [h]
    _ = c * (m * inv m) := mul_assoc _ _ _
    _ = c := by rw [hmi, mul_one]

theorem mulVec_zero (m : Mat3 K) : mulVec m 0 = 0 := by
  simp [mulVec, Vec3.dot]

theorem mulVec_one (v : Vec3 K) : mulVec 1 v = v := by
  rw [Vec3.ext_iff]
  refine ⟨?_, ?_, ?_⟩ <;> (simp only [one_def, mulVec, Vec3.dot]; ring)

theorem mulVec_smul (m : Mat3 K) (c : K) (v : Vec3 K) :
    mulVec m (c • v) = c • mulVec m v := by
  rw [Vec3.ext_iff]
  refine ⟨?_, ?_, ?_⟩ <;> (simp only [mulVec, Vec3.smul_def, Vec3.dot]; ring)

theorem smul_mulVec (c : K) (m : Mat3 K) (v : Vec3 K) :
    mulVec (c • m) v = c • mulVec m v := by
  rw [Vec3.ext_iff]
  refine ⟨?_, ?_, ?_⟩ <;>
    (simp only [mulVec, smul_def_mat, Vec3.smul_def, Vec3.dot]; ring)

theorem mulVec_neg (m : Mat3 K) (v : Vec3 K) : mulVec m (-v) = -mulVec m v := by
  rw [Vec3.ext_iff]
  refine ⟨?_, ?_, ?_⟩ <;> (simp only [mulVec, Vec3.neg_def, Vec3.dot]; ring)

theorem diag_mul_diag (a b c d e f : K) :
    diag a b c * diag d e f = diag (a * d) (b * e) (c * f) := by
  rw [ext_iff_mat]
  refine ⟨?_, ?_, ?_⟩ <;> rw [Vec3.ext_iff] <;>
    refine ⟨?_, ?_, ?_⟩ <;>
    (simp only [mul_def, mul, diag, Vec3.dot, col0, col1, col2]; ring)

theorem tr_diag (a b c : K) : tr (diag a b c) = diag a b c := by
  rw [ext_iff_mat]
  refine ⟨?_, ?_, ?_⟩ <;> rw [Vec3.ext_iff] <;>
    refine ⟨?_, ?_, ?_⟩ <;> simp only [tr, ofCols, diag]

theorem diag_one : diag (1 : K) 1 1 = 1 := by
  simp only [diag, one_def]

theorem Orth.mul_tr {m : Mat3 K} (h : m.Orth) : m * tr m = 1 :=
  mul_eq_one_of_mul_eq_one h

theorem Orth.mul {a b : Mat3 K} (ha : a.Orth) (hb : b.Orth) : (a * b).Orth := by
  show tr (a * b) * (a * b) = 1
  rw [tr_mul, mul_assoc, ← mul_assoc (tr a) a b, ha, one_mul, hb]

theorem Orth.tr_orth {a : Mat3 K} (ha : a.Orth) : (tr a).Orth := by
  show tr (tr a) * tr a = 1
  rw [tr_tr]
  exact ha.mul_tr

theorem orth_one : (1 : Mat3 K).Orth := by
  show tr 1 * 1 = 1
  rw [mul_one]
  rw [ext_iff_mat]
  refine ⟨?_, ?_, ?_⟩ <;> rw [Vec3.ext_iff] <;>
    refine ⟨?_, ?_, ?_⟩ <;> simp only [tr, ofCols, one_def]

theorem orth_flipYZ : (diag (1 : K) (-1) (-1)).Orth := by
  show tr (diag 1 (-1) (-1)) * diag 1 (-1) (-1) = 1
  rw [tr_diag, diag_mul_diag]
  norm_num [diag_one]

theorem orth_flipZ : (diag (1 : K) 1 (-1)).Orth := by
  show tr (diag 1 1 (-1)) * diag 1 1 (-1) = 1
  rw [tr_diag, diag_mul_diag]
  norm_num [diag_one]

/-- The adjugate-formula inverse of an orthogonal matrix scaled by a
nonzero factor: inv (s • q) = (1 / s) • tr q. -/
theorem inv_smul_orth {q : Mat3 K} {s : K} (hq : q.Orth) (hs : s ≠ 0) :
    inv (s • q) = (1 / s) • tr q := by
  apply inv_eq_of_mul_eq_one
  rw [smul_mul, mul_smul_right, smul_smul_mat, hq]
  rw [one_div, inv_mul_cancel₀ hs, one_smul_mat]

end Mat3

namespace Vec3

theorem dot_smul_left (c : K) (a b : Vec3 K) : dot (c • a) b = c * dot a b := by
  simp only [smul_def, dot]; ring

theorem dot_smul_right (c : K) (a b : Vec3 K) : dot a (c • b) = c * dot a b := by
  simp only [smul_def, dot]; ring

theorem cross_smul_left (c : K) (a b : Vec3 K) :
    cross (c • a) b = c • cross a b := by
  rw [ext_iff]
  refine ⟨?_, ?_, ?_⟩ <;> (simp only [smul_def, cross]; ring)

theorem cross_smul_right (c : K) (a b : Vec3 K) :
    cross a (c • b) = c • cross a b := by
  rw [ext_iff]
  refine ⟨?_, ?_, ?_⟩ <;> (simp only [smul_def, cross]; ring)

theorem dot_cross_left (a b : Vec3 K) : dot (cross a b) a = 0 := by
  simp only [cross, dot]; ring

theorem dot_cross_right (a b : Vec3 K) : dot (cross a b) b = 0 := by
  simp only [cross, dot]; ring

/-- Lagrange identity for the cross product norm. -/
theorem dot_cross_self (a b : Vec3 K) :
    dot (cross a b) (cross a b) = dot a a * dot b b - dot a b * dot a b := by
  simp only [cross, dot]; ring

/-- The bac-cab expansion of a triple cross product. -/
theorem cross_cross (a b c : Vec3 K) :
    cross a (cross b c) = dot a c • b - dot a b • c := by
  rw [ext_iff]
  refine ⟨?_, ?_, ?_⟩ <;> (simp only [cross, dot, smul_def, sub_def]; ring)

theorem smul_smul_vec (c d : K) (a : Vec3 K) : c • d • a = (c * d) • a := by
  rw [ext_iff]
  refine ⟨?_, ?_, ?_⟩ <;> (simp only [smul_def]; ring)

theorem smul_zero_vec (c : K) : c • (0 : Vec3 K) = 0 := by
  rw [ext_iff]
  refine ⟨?_, ?_, ?_⟩ <;> (simp only [smul_def, zero_def]; ring)

end Vec3

namespace Mat3

theorem tr_ofCols (a b c : Vec3 K) : tr (ofCols a b c) = ⟨a, b, c⟩ := rfl

/-- Gram-matrix form of the product of a transposed column matrix with a
column matrix. -/
theorem tr_ofCols_mul_ofCols (a b c d e f : Vec3 K) :
    tr (ofCols a b c) * ofCols d e f =
      ⟨⟨Vec3.dot a d, Vec3.dot a e, Vec3.dot a f⟩,
       ⟨Vec3.dot b d, Vec3.dot b e, Vec3.dot b f⟩,
       ⟨Vec3.dot c d, Vec3.dot c e, Vec3.dot c f⟩⟩ := by
  rw [ext_iff_mat]
  refine ⟨?_, ?_, ?_⟩ <;> rw [Vec3.ext_iff] <;>
    refine ⟨?_, ?_, ?_⟩ <;>
    (simp only [mul_def, mul, tr, ofCols, Vec3.dot, col0, col1, col2]; try ring)

/-- Orthogonality of a column-assembled matrix from the six dot facts. -/
theorem ofCols_orth {a b c : Vec3 K} (haa : Vec3.dot a a = 1)
    (hbb : Vec3.dot b b = 1) (hcc : Vec3.dot c c = 1)
    (hab : Vec3.dot a b = 0) (hac : Vec3.dot a c = 0)
    (hbc : Vec3.dot b c = 0) : (ofCols a b c).Orth := by
  show tr (ofCols a b c) * ofCols a b c = 1
  rw [tr_ofCols_mul_ofCols, one_def]
  rw [ext_iff_mat]
  refine ⟨?_, ?_, ?_⟩ <;> rw [Vec3.ext_iff] <;>
    refine ⟨?_, ?_, ?_⟩ <;>
    simp only [haa, hbb, hcc, hab, hac, hbc, Vec3.dot_comm b a, Vec3.dot_comm c a,
      Vec3.dot_comm c b, hab, hac, hbc]

/-- Determinant of a frame whose middle column is the cross product of the
outer two: a polynomial identity. -/
theorem det_ofCols_cross (a c : Vec3 K) :
    det (ofCols a (Vec3.cross c a) c) =
      Vec3.dot a a * Vec3.dot c c - Vec3.dot a c * Vec3.dot a c := by
  simp only [det, ofCols, Vec3.cross, Vec3.dot]; ring

end Mat3

/-! Real-valued facts about normalize and viewmatrix. -/

theorem normalize_dot_pos {v : Vec3 ℝ} (hv : v ≠ 0) : 0 < Vec3.dot v v := by
  rcases lt_or_eq_of_le (Vec3.dot_nonneg_self v) with h | h
  · exact h
  · exact absurd ((Vec3.dot_self_eq_zero_iff v).mp h.symm) hv

theorem normalize_sqrt_pos {v : Vec3 ℝ} (hv : v ≠ 0) :
    0 < Real.sqrt (Vec3.dot v v) :=
  Real.sqrt_pos.mpr (normalize_dot_pos hv)

/-- A nonzero vector normalizes to a unit vector. -/
theorem dot_normalize {v : Vec3 ℝ} (hv : v ≠ 0) :
    Vec3.dot (normalize Real.sqrt v) (normalize Real.sqrt v) = 1 := by
  have hd := normalize_dot_pos hv
  have hs := normalize_sqrt_pos hv
  simp only [normalize, Vec3.dot_smul_left, Vec3.dot_smul_right]
  rw [show (1 / Real.sqrt (Vec3.dot v v)) *
      (1 / Real.sqrt (Vec3.dot v v) * Vec3.dot v v) =
      Vec3.dot v v / (Real.sqrt (Vec3.dot v v) * Real.sqrt (Vec3.dot v v)) by
    field_simp]
  rw [Real.mul_self_sqrt hd.le]
  exact div_self hd.ne'

/-- Normalizing scales by a positive factor. -/
theorem normalize_eq_smul (v : Vec3 ℝ) :
    normalize Real.sqrt v = (1 / Real.sqrt (Vec3.dot v v)) • v := rfl

/-- A normalized vector is unchanged by prior positive scaling. -/
theorem normalize_smul_pos {a : ℝ} (ha : 0 < a) (v : Vec3 ℝ) :
    normalize Real.sqrt (a • v) = normalize Real.sqrt v := by
  simp only [normalize, Vec3.dot_smul_left, Vec3.dot_smul_right]
  have h1 : a * (a * Vec3.dot v v) = a ^ 2 * Vec3.dot v v := by ring
  rw [h1, Real.sqrt_mul (sq_nonneg a), Real.sqrt_sq ha.le,
    Vec3.smul_smul_vec]
  rcases eq_or_ne (Real.sqrt (Vec3.dot v v)) 0 with h0 | h0
  · rw [h0, mul_zero, div_zero, zero_mul]
  · congr 1
    field_simp

/-- A vector that already has unit dot product normalizes to itself. -/
theorem normalize_of_unit {v : Vec3 ℝ} (hv : Vec3.dot v v = 1) :
    normalize Real.sqrt v = v := by
  rw [normalize_eq_smul, hv, Real.sqrt_one]
  rw [Vec3.ext_iff]
  refine ⟨?_, ?_, ?_⟩ <;> (simp only [Vec3.smul_def]; ring)

theorem vec3_smul_eq_zero_iff (c : ℝ) (v : Vec3 ℝ) :
    c • v = 0 ↔ c = 0 ∨ v = 0 := by
  constructor
  · intro h
    rcases eq_or_ne c 0 with hc | hc
    · exact Or.inl hc
    · refine Or.inr ?_
      rw [Vec3.ext_iff] at h ⊢
      simp only [Vec3.smul_def, Vec3.zero_def] at h
      obtain ⟨h1, h2, h3⟩ := h
      exact ⟨by
        have := mul_eq_zero.mp h1
        tauto, by
        have := mul_eq_zero.mp h2
        tauto, by
        have := mul_eq_zero.mp h3
        tauto⟩
  · rintro (rfl | rfl)
    · rw [Vec3.ext_iff]
      refine ⟨?_, ?_, ?_⟩ <;> simp only [Vec3.smul_def, Vec3.zero_def, zero_mul]
    · exact Vec3.smul_zero_vec c

/-- Nondegeneracy transfers through the normalization of the forward
axis. -/
theorem cross_normalize_ne_zero {u z : Vec3 ℝ} (hz : z ≠ 0)
    (h : Vec3.cross u z ≠ 0) :
    Vec3.cross u (normalize Real.sqrt z) ≠ 0 := by
  rw [normalize_eq_smul, Vec3.cross_smul_right]
  intro hcon
  rcases (vec3_smul_eq_zero_iff _ _).mp hcon with hc | hv
  · have := normalize_sqrt_pos hz
    rw [div_eq_zero_iff] at hc
    rcases hc with hc | hc
    · exact one_ne_zero hc
    · exact this.ne' hc
  · exact h hv

/-- The three viewmatrix basis columns, named as in the source. -/
theorem viewmatrix_lin (z u pos : Vec3 ℝ) :
    (viewmatrix Real.sqrt z u pos) =
      ⟨Mat3.ofCols
        (normalize Real.sqrt (Vec3.cross u (normalize Real.sqrt z)))
        (normalize Real.sqrt (Vec3.cross (normalize Real.sqrt z)
          (normalize Real.sqrt (Vec3.cross u (normalize Real.sqrt z)))))
        (normalize Real.sqrt z), pos⟩ := rfl

/-- Under the nondegeneracy conditions, the middle viewmatrix column needs
no renormalization: it is the exact cross product of the outer two. -/
theorem viewmatrix_cols {z u pos : Vec3 ℝ} (hz : z ≠ 0)
    (hw : Vec3.cross u (normalize Real.sqrt z) ≠ 0) :
    (viewmatrix Real.sqrt z u pos).lin =
      Mat3.ofCols
        (normalize Real.sqrt (Vec3.cross u (normalize Real.sqrt z)))
        (Vec3.cross (normalize Real.sqrt z)
          (normalize Real.sqrt (Vec3.cross u (normalize Real.sqrt z))))
        (normalize Real.sqrt z) := by
  have hmid : normalize Real.sqrt (Vec3.cross (normalize Real.sqrt z)
      (normalize Real.sqrt (Vec3.cross u (normalize Real.sqrt z)))) =
      Vec3.cross (normalize Real.sqrt z)
        (normalize Real.sqrt (Vec3.cross u (normalize Real.sqrt z))) := by
    apply normalize_of_unit
    set vec2 := normalize Real.sqrt z with hv2
    set vec0 := normalize Real.sqrt (Vec3.cross u vec2) with hv0
    have h22 : Vec3.dot vec2 vec2 = 1 := dot_normalize hz
    have h00 : Vec3.dot vec0 vec0 = 1 := dot_normalize hw
    have h20 : Vec3.dot vec2 vec0 = 0 := by
      rw [hv0, normalize_eq_smul, Vec3.dot_smul_right]
      rw [Vec3.dot_comm vec2 (Vec3.cross u vec2), Vec3.dot_cross_right, mul_zero]
    rw [Vec3.dot_cross_self, h22, h00, h20]
    ring
  rw [viewmatrix_lin]
  show Mat3.ofCols _ _ _ = _
  rw [hmid]

/-- Orthonormality of the viewmatrix rotation block: the real content of
the viewmatrix contract. -/
theorem viewmatrix_orth {z u pos : Vec3 ℝ} (hz : z ≠ 0)
    (hw : Vec3.cross u (normalize Real.sqrt z) ≠ 0) :
    (viewmatrix Real.sqrt z u pos).lin.Orth := by
  rw [viewmatrix_cols hz hw]
  set vec2 := normalize Real.sqrt z with hv2
  set vec0 := normalize Real.sqrt (Vec3.cross u vec2) with hv0
  have h22 : Vec3.dot vec2 vec2 = 1 := dot_normalize hz
  have h00 : Vec3.dot vec0 vec0 = 1 := dot_normalize hw
  have h20 : Vec3.dot vec2 vec0 = 0 := by
    rw [hv0, normalize_eq_smul, Vec3.dot_smul_right]
    rw [Vec3.dot_comm vec2 (Vec3.cross u vec2), Vec3.dot_cross_right, mul_zero]
  refine Mat3.ofCols_orth h00 ?_ h22 ?_ ?_ ?_
  · rw [Vec3.dot_cross_self, h22, h00, h20]; ring
  · rw [Vec3.dot_comm, Vec3.dot_cross_right]
  · rw [Vec3.dot_comm, h20]
  · rw [Vec3.dot_cross_left]

/-- Right-handedness of the viewmatrix rotation block. -/
theorem viewmatrix_det {z u pos : Vec3 ℝ} (hz : z ≠ 0)
    (hw : Vec3.cross u (normalize Real.sqrt z) ≠ 0) :
    (viewmatrix Real.sqrt z u pos).lin.det = 1 := by
  rw [viewmatrix_cols hz hw]
  set vec2 := normalize Real.sqrt z with hv2
  set vec0 := normalize Real.sqrt (Vec3.cross u vec2) with hv0
  have h22 : Vec3.dot vec2 vec2 = 1 := dot_normalize hz
  have h00 : Vec3.dot vec0 vec0 = 1 := dot_normalize hw
  have h02 : Vec3.dot vec0 vec2 = 0 := by
    rw [hv0, normalize_eq_smul, Vec3.dot_smul_left]
    rw [Vec3.dot_cross_right, mul_zero]
  rw [Mat3.det_ofCols_cross, h22, h00, h02]
  ring

/-- The up column of viewmatrix is a positive multiple of the projection
of the up hint orthogonal to the forward axis, not of the hint itself. -/
theorem viewmatrix_col1_proj {z u pos : Vec3 ℝ} (hz : z ≠ 0)
    (hw : Vec3.cross u (normalize Real.sqrt z) ≠ 0) :
    ∃ k : ℝ, 0 < k ∧
      Mat3.col1 (viewmatrix Real.sqrt z u pos).lin =
        k • (u - Vec3.dot u (normalize Real.sqrt z) • normalize Real.sqrt z) := by
  rw [viewmatrix_cols hz hw]
  set vec2 := normalize Real.sqrt z with hv2
  set w := Vec3.cross u vec2 with hwdef
  have h22 : Vec3.dot vec2 vec2 = 1 := dot_normalize hz
  refine ⟨1 / Real.sqrt (Vec3.dot w w), ?_, ?_⟩
  · exact div_pos one_pos (normalize_sqrt_pos hw)
  · show Vec3.cross vec2 (normalize Real.sqrt w) = _
    rw [normalize_eq_smul, Vec3.cross_smul_right, hwdef, Vec3.cross_cross,
      h22, Vec3.dot_comm vec2 u]
    congr 1
    rw [Vec3.ext_iff]
    refine ⟨?_, ?_, ?_⟩ <;> (simp only [Vec3.smul_def, Vec3.sub_def]; ring)

/-- The viewmatrix frame is invariant under positive rescaling of the
forward and up hint vectors. -/
theorem viewmatrix_scale_invariant {a b : ℝ} (ha : 0 < a) (hb : 0 < b)
    (z u pos : Vec3 ℝ) :
    viewmatrix Real.sqrt (a • z) (b • u) pos = viewmatrix Real.sqrt z u pos := by
  rw [viewmatrix_lin, viewmatrix_lin]
  rw [normalize_smul_pos ha, Vec3.cross_smul_left, normalize_smul_pos hb]

/-- C3: for every forward vector z and up hint u that are both nonzero and
non-parallel, the column block of viewmatrix(z, u, pos) is orthonormal and
right-handed (determinant 1); this is independent of the norms of z and u
(positive rescaling of either hint leaves the pose unchanged), and the up
column keeps only the projection of u orthogonal to the forward axis (a
positive multiple of it), not u itself. -/
theorem viewmatrix_orthonormal_right_handed (z u pos : Vec3 ℝ)
    (hz : z ≠ 0) (hu : u ≠ 0) (hpar : Vec3.cross u z ≠ 0) :
    (viewmatrix Real.sqrt z u pos).lin.Orth ∧
    (viewmatrix Real.sqrt z u pos).lin.det = 1 ∧
    (∀ a b : ℝ, 0 < a → 0 < b →
      viewmatrix Real.sqrt (a • z) (b • u) pos = viewmatrix Real.sqrt z u pos) ∧
    (∃ k : ℝ, 0 < k ∧
      Mat3.col1 (viewmatrix Real.sqrt z u pos).lin =
        k • (u - Vec3.dot u (normalize Real.sqrt z) • normalize Real.sqrt z)) := by
  have hw := cross_normalize_ne_zero hz hpar
  exact ⟨viewmatrix_orth hz hw, viewmatrix_det hz hw,
    fun a b ha hb => viewmatrix_scale_invariant ha hb z u pos,
    viewmatrix_col1_proj hz hw⟩

/-- Witness for C3 at the concrete non-degenerate input z = e_z,
u = e_y, pos = 0. -/
theorem viewmatrix_orthonormal_right_handed_witness :
    ((⟨0, 0, 1⟩ : Vec3 ℝ) ≠ 0) ∧ ((⟨0, 1, 0⟩ : Vec3 ℝ) ≠ 0) ∧
    (Vec3.cross ⟨0, 1, 0⟩ (⟨0, 0, 1⟩ : Vec3 ℝ) ≠ 0) ∧
    ((viewmatrix Real.sqrt ⟨0, 0, 1⟩ ⟨0, 1, 0⟩ 0).lin.Orth ∧
     (viewmatrix Real.sqrt ⟨0, 0, 1⟩ ⟨0, 1, 0⟩ 0).lin.det = 1 ∧
     (∀ a b : ℝ, 0 < a → 0 < b →
       viewmatrix Real.sqrt (a • ⟨0, 0, 1⟩) (b • ⟨0, 1, 0⟩) 0 =
         viewmatrix Real.sqrt ⟨0, 0, 1⟩ ⟨0, 1, 0⟩ 0) ∧
     (∃ k : ℝ, 0 < k ∧
       Mat3.col1 (viewmatrix Real.sqrt ⟨0, 0, 1⟩ ⟨0, 1, 0⟩ 0).lin =
         k • (⟨0, 1, 0⟩ - Vec3.dot ⟨0, 1, 0⟩ (normalize Real.sqrt ⟨0, 0, 1⟩) •
           normalize Real.sqrt ⟨0, 0, 1⟩))) := by
  have h1 : (⟨0, 0, 1⟩ : Vec3 ℝ) ≠ 0 := by
    intro h
    rw [Vec3.ext_iff] at h
    simp only [Vec3.zero_def] at h
    norm_num at h
  have h2 : (⟨0, 1, 0⟩ : Vec3 ℝ) ≠ 0 := by
    intro h
    rw [Vec3.ext_iff] at h
    simp only [Vec3.zero_def] at h
    norm_num at h
  have h3 : Vec3.cross ⟨0, 1, 0⟩ (⟨0, 0, 1⟩ : Vec3 ℝ) ≠ 0 := by
    intro h
    rw [Vec3.ext_iff] at h
    simp only [Vec3.cross, Vec3.zero_def] at h
    norm_num at h
  exact ⟨h1, h2, h3, viewmatrix_orthonormal_right_handed _ _ 0 h1 h2 h3⟩

/-! Lemmas for the CDF of the resampler. -/

theorem cumsumAux_chain (l : List K) (h : ∀ x ∈ l, 0 ≤ x) :
    ∀ acc : K, List.Chain' (· ≤ ·) (acc :: cumsumAux acc l) := by
  induction l with
  | nil => intro acc; simp [cumsumAux]
  | cons x xs ih =>
      intro acc
      rw [show cumsumAux acc (x :: xs) = (acc + x) :: cumsumAux (acc + x) xs
        from rfl]
      rw [List.chain'_cons]
      constructor
      · exact le_add_of_nonneg_right (h x (List.mem_cons_self x xs))
      · exact ih (fun y hy => h y (List.mem_cons_of_mem x hy)) (acc + x)

theorem cumsumAux_le (l : List K) (h : ∀ x ∈ l, 0 ≤ x) :
    ∀ acc : K, ∀ y ∈ cumsumAux acc l, acc ≤ y := by
  induction l with
  | nil => intro acc y hy; simp [cumsumAux] at hy
  | cons x xs ih =>
      intro acc y hy
      rw [show cumsumAux acc (x :: xs) = (acc + x) :: cumsumAux (acc + x) xs
        from rfl] at hy
      have hx := h x (List.mem_cons_self x xs)
      rcases List.mem_cons.mp hy with rfl | hy
      · exact le_add_of_nonneg_right hx
      · exact le_trans (le_add_of_nonneg_right hx)
          (ih (fun z hz => h z (List.mem_cons_of_mem x hz)) (acc + x) y hy)

/-- C4: for a weight vector that is a probability distribution along the
last axis, the CDF built by integrate_weights_np is monotonically
non-decreasing, starts with exactly 0 and ends with exactly 1. -/
theorem integrate_weights_np_cdf (w : List K) (hpos : ∀ x ∈ w, 0 ≤ x)
    (hsum : w.sum = 1) :
    List.Chain' (· ≤ ·) (integrate_weights_np w) ∧
    (integrate_weights_np w).head? = some 0 ∧
    (integrate_weights_np w).getLast? = some 1 := by
  have hpos' : ∀ x ∈ w.dropLast, 0 ≤ x :=
    fun x hx => hpos x (List.dropLast_subset w hx)
  refine ⟨?_, rfl, ?_⟩
  · show List.Chain' (· ≤ ·)
      ((0 : K) :: (((cumsum w.dropLast).map (fun c => min 1 c)) ++ [1]))
    have hchain : List.Chain' (· ≤ ·) (cumsum w.dropLast) :=
      (cumsumAux_chain w.dropLast hpos' 0).tail
    have hmem : ∀ y ∈ cumsum w.dropLast, 0 ≤ y :=
      cumsumAux_le w.dropLast hpos' 0
    have hchainm : List.Chain' (· ≤ ·)
        ((cumsum w.dropLast).map (fun c => min 1 c)) := by
      rw [List.chain'_map]
      exact hchain.imp (fun a b hab => min_le_min le_rfl hab)
    have happ : List.Chain' (· ≤ ·)
        (((cumsum w.dropLast).map (fun c => min 1 c)) ++ [1]) := by
      apply hchainm.append (List.chain'_singleton 1)
      intro x hx y hy
      simp only [List.head?_cons, Option.mem_def, Option.some.injEq] at hy
      have hx' : x ∈ (cumsum w.dropLast).map (fun c => min 1 c) :=
        List.mem_of_mem_getLast? hx
      obtain ⟨cval, _, rfl⟩ := List.mem_map.mp hx'
      subst hy
      exact min_le_left 1 cval
    rw [List.chain'_cons']
    refine ⟨?_, happ⟩
    intro b hb
    rcases hl : (cumsum w.dropLast).map (fun c => min 1 c) with _ | ⟨c1, cs⟩
    · rw [hl] at hb
      simp only [List.nil_append, List.head?_cons, Option.mem_def,
        Option.some.injEq] at hb
      subst hb
      norm_num
    · rw [hl] at hb
      simp only [List.cons_append, List.head?_cons, Option.mem_def,
        Option.some.injEq] at hb
      subst hb
      have hc1 : c1 ∈ (cumsum w.dropLast).map (fun c => min 1 c) := by
        rw [hl]; exact List.mem_cons_self _ _
      obtain ⟨cval, hcval, rfl⟩ := List.mem_map.mp hc1
      exact le_min (by norm_num) (hmem cval hcval)
  · show ((0 : K) :: (((cumsum w.dropLast).map (fun c => min 1 c)) ++ [1])).getLast?
      = some 1
    rw [← List.cons_append, List.getLast?_concat]

/-- Witness for C4 at the two-bin uniform distribution. -/
theorem integrate_weights_np_cdf_witness :
    (∀ x ∈ [(1 : ℚ)/2, 1/2], 0 ≤ x) ∧ ([(1 : ℚ)/2, 1/2].sum = 1) ∧
    (List.Chain' (· ≤ ·) (integrate_weights_np [(1 : ℚ)/2, 1/2]) ∧
     (integrate_weights_np [(1 : ℚ)/2, 1/2]).head? = some 0 ∧
     (integrate_weights_np [(1 : ℚ)/2, 1/2]).getLast? = some 1) := by
  have hp : ∀ x ∈ [(1 : ℚ)/2, 1/2], 0 ≤ x := by
    norm_num [List.forall_mem_cons]
  have hsum : [(1 : ℚ)/2, 1/2].sum = 1 := by
    norm_num [List.sum_cons, List.sum_nil]
  exact ⟨hp, hsum, integrate_weights_np_cdf _ hp hsum⟩

/-- C7: the second generate_spiral_path overload does not average the
per-view focal lengths: at two views with focals 1 and 3 the focal it uses
is get_focal of the first view (1), not the mean (2), because the loop
accumulates get_focal(views[0]) instead of get_focal(view). -/
theorem spiralPathFocal_is_first_focal :
    spiralPathFocal [(⟨1, 0, 1⟩ : View ℚ), ⟨1, 0, 3⟩] = 1 ∧
    spiralPathFocal [(⟨1, 0, 1⟩ : View ℚ), ⟨1, 0, 3⟩] ≠
      kmean (([(⟨1, 0, 1⟩ : View ℚ), ⟨1, 0, 3⟩]).map get_focal) ∧
    kmean (([(⟨1, 0, 1⟩ : View ℚ), ⟨1, 0, 3⟩]).map get_focal) = 2 := by
  have h1 : spiralPathFocal [(⟨1, 0, 1⟩ : View ℚ), ⟨1, 0, 3⟩] = 1 := by
    norm_num [spiralPathFocal, get_focal, List.foldl]
  have h2 : kmean (([(⟨1, 0, 1⟩ : View ℚ), ⟨1, 0, 3⟩]).map get_focal) = 2 := by
    norm_num [kmean, get_focal, List.sum_cons, List.sum_nil]
  refine ⟨h1, ?_, h2⟩
  rw [h1, h2]
  norm_num

/-! Lemmas for the PCA canonicalization. -/

namespace Vec3

theorem one_smul_vec (v : Vec3 K) : (1 : K) • v = v := by
  rw [ext_iff]
  refine ⟨?_, ?_, ?_⟩ <;> (simp only [smul_def]; ring)

theorem add_zero_vec (v : Vec3 K) : v + 0 = v := by
  rw [ext_iff]
  refine ⟨?_, ?_, ?_⟩ <;> (simp only [add_def, zero_def]; ring)

theorem add_neg_cancel_right_vec (a b : Vec3 K) : a + b + -b = a := by
  rw [ext_iff]
  refine ⟨?_, ?_, ?_⟩ <;> (simp only [add_def, neg_def]; ring)

end Vec3

namespace Mat3

theorem mulVec_add (m : Mat3 K) (u v : Vec3 K) :
    mulVec m (u + v) = mulVec m u + mulVec m v := by
  rw [Vec3.ext_iff]
  refine ⟨?_, ?_, ?_⟩ <;>
    (simp only [mulVec, Vec3.add_def, Vec3.dot]; ring)

/-- diag(s, s, s) acts as scalar multiplication from the left. -/
theorem diag_mul_eq_smul (s : K) (m : Mat3 K) : diag s s s * m = s • m := by
  rw [ext_iff_mat]
  refine ⟨?_, ?_, ?_⟩ <;> rw [Vec3.ext_iff] <;>
    refine ⟨?_, ?_, ?_⟩ <;>
    (simp only [mul_def, mul, diag, smul_def_mat, Vec3.smul_def, Vec3.dot,
      col0, col1, col2]; ring)

theorem diag_mulVec_eq_smul (s : K) (v : Vec3 K) :
    (diag s s s).mulVec v = s • v := by
  rw [Vec3.ext_iff]
  refine ⟨?_, ?_, ?_⟩ <;>
    (simp only [mulVec, diag, Vec3.smul_def, Vec3.dot]; ring)

/-- A matrix equals the column assembly of its own columns. -/
theorem ofCols_cols (m : Mat3 K) : ofCols (col0 m) (col1 m) (col2 m) = m := rfl

end Mat3

namespace M34

theorem comp_assoc (a b c : M34 K) : comp (comp a b) c = comp a (comp b c) := by
  show (⟨(a.lin * b.lin) * c.lin, (a.lin * b.lin).mulVec c.t +
    (a.lin.mulVec b.t + a.t)⟩ : M34 K) =
    ⟨a.lin * (b.lin * c.lin), a.lin.mulVec (b.lin.mulVec c.t + b.t) + a.t⟩
  rw [Mat3.mul_assoc, Mat3.mulVec_add, ← Mat3.mulVec_mulVec]
  congr 1
  rw [Vec3.ext_iff]
  refine ⟨?_, ?_, ?_⟩ <;> (simp only [Vec3.add_def]; ring)

end M34

/-- The nine dot products between the columns of a matrix with orthonormal
columns. -/
theorem orth_col_dots {V : Mat3 K} (hV : Mat3.tr V * V = 1) :
    Vec3.dot (Mat3.col0 V) (Mat3.col0 V) = 1 ∧
    Vec3.dot (Mat3.col1 V) (Mat3.col1 V) = 1 ∧
    Vec3.dot (Mat3.col2 V) (Mat3.col2 V) = 1 ∧
    Vec3.dot (Mat3.col0 V) (Mat3.col1 V) = 0 ∧
    Vec3.dot (Mat3.col0 V) (Mat3.col2 V) = 0 ∧
    Vec3.dot (Mat3.col1 V) (Mat3.col2 V) = 0 := by
  rw [← Mat3.ofCols_cols V, Mat3.tr_ofCols_mul_ofCols] at hV
  rw [Mat3.ext_iff_mat] at hV
  obtain ⟨h0, h1, h2⟩ := hV
  rw [Vec3.ext_iff] at h0 h1 h2
  simp only [Mat3.one_def] at h0 h1 h2
  exact ⟨h0.1, h1.2.1, h2.2.2, h0.2.1, h0.2.2, h1.2.2⟩

/-- Reordering the columns of a matrix with orthonormal columns by the
descending argsort permutation keeps the columns orthonormal. -/
theorem sortEigvec_orth {e : Eig3 K} (hV : Mat3.tr e.vec * e.vec = 1) :
    Mat3.tr (sortEigvec e) * sortEigvec e = 1 := by
  obtain ⟨h00, h11, h22, h01, h02, h12⟩ := orth_col_dots hV
  have h10 : Vec3.dot (Mat3.col1 e.vec) (Mat3.col0 e.vec) = 0 := by
    rw [Vec3.dot_comm]; exact h01
  have h20 : Vec3.dot (Mat3.col2 e.vec) (Mat3.col0 e.vec) = 0 := by
    rw [Vec3.dot_comm]; exact h02
  have h21 : Vec3.dot (Mat3.col2 e.vec) (Mat3.col1 e.vec) = 0 := by
    rw [Vec3.dot_comm]; exact h12
  unfold sortEigvec argsort3
  split_ifs <;>
    simp only [colOf] <;>
    exact Mat3.ofCols_orth (by assumption) (by assumption) (by assumption)
      (by assumption) (by assumption) (by assumption)

/-- The handedness-fixed PCA rotation keeps orthonormal columns. -/
theorem pcaRot_orth {e : Eig3 K} (hV : Mat3.tr e.vec * e.vec = 1) :
    Mat3.tr (pcaRot e) * pcaRot e = 1 := by
  simp only [pcaRot]
  split_ifs
  · exact Mat3.Orth.mul Mat3.orth_flipZ (Mat3.Orth.tr_orth (sortEigvec_orth hV))
  · exact Mat3.Orth.tr_orth (sortEigvec_orth hV)

/-- The linear block of the running PCA transform after the optional y/z
flip keeps orthonormal columns. -/
theorem pcaAff1_lin_orth {e : Eig3 K} (poses : List (M34 K))
    (hV : Mat3.tr e.vec * e.vec = 1) :
    Mat3.tr (pcaAff1 e poses).lin * (pcaAff1 e poses).lin = 1 := by
  unfold pcaAff1
  split_ifs
  · show Mat3.tr (Mat3.diag 1 (-1) (-1) * (pcaAff0 e poses).lin) *
      (Mat3.diag 1 (-1) (-1) * (pcaAff0 e poses).lin) = 1
    exact Mat3.Orth.mul Mat3.orth_flipYZ (pcaRot_orth hV)
  · exact pcaRot_orth hV

/-- The flipped recentered poses are exactly the poses pushed through the
flipped running transform. -/
theorem pcaRec1_eq (e : Eig3 K) (poses : List (M34 K)) :
    pcaRec1 e poses = poses.map (fun p => M34.comp (pcaAff1 e poses) p) := by
  unfold pcaRec1 pcaAff1
  split_ifs with h
  · unfold pcaRec0
    rw [List.map_map]
    apply List.map_congr_left
    intro p _
    exact (M34.comp_assoc _ _ _).symm
  · rfl

/-- Applying the inverse of the scaled affine transform to the
translation-scaled image of a pose recovers the translation exactly and
the rotation block up to the factor 1 / s. -/
theorem affine_roundtrip {Q : Mat3 K} {c : Vec3 K} {s : K}
    (hQ : Mat3.tr Q * Q = 1) (hs : s ≠ 0) (p : M34 K) :
    M34.comp (M34.inv ⟨s • Q, s • c⟩) ⟨Q * p.lin, s • (Q.mulVec p.t + c)⟩ =
      ⟨(1 / s) • p.lin, p.t⟩ := by
  have hQorth : Q.Orth := hQ
  have hinv : Mat3.inv (s • Q) = (1 / s) • Mat3.tr Q :=
    Mat3.inv_smul_orth hQorth hs
  have hss : (1 / s) * s = 1 := by field_simp
  unfold M34.comp M34.inv
  simp only [hinv]
  congr 1
  · rw [Mat3.smul_mul, ← Mat3.mul_assoc, hQ, Mat3.one_mul]
  · rw [Mat3.smul_mulVec, Mat3.mulVec_smul, Vec3.smul_smul_vec, hss,
      Vec3.one_smul_vec, Mat3.smul_mulVec, Mat3.mulVec_smul,
      Vec3.smul_smul_vec, hss, Vec3.one_smul_vec, Mat3.mulVec_add,
      Vec3.add_neg_cancel_right_vec, Mat3.mulVec_mulVec, hQ, Mat3.mulVec_one]

theorem maxAbsT_cons (p : M34 K) (l : List (M34 K)) :
    maxAbsT (p :: l) = max (max |p.t.x| (max |p.t.y| |p.t.z|)) (maxAbsT l) :=
  rfl

theorem maxAbsT_scale (s : K) (hs : 0 ≤ s) (l : List (M34 K)) :
    maxAbsT (l.map (fun p => ⟨p.lin, s • p.t⟩)) = s * maxAbsT l := by
  induction l with
  | nil => simp [maxAbsT]
  | cons p ps ih =>
      rw [List.map_cons, maxAbsT_cons, maxAbsT_cons, ih]
      show max (max |s * p.t.x| (max |s * p.t.y| |s * p.t.z|)) _ = _
      rw [abs_mul, abs_mul, abs_mul, abs_of_nonneg hs]
      rw [mul_max_of_nonneg _ _ hs, mul_max_of_nonneg _ _ hs,
        mul_max_of_nonneg _ _ hs]

/-- C2: for a non-empty pose set whose recentered translations are not all
zero, the maximum absolute translation coordinate of the pose set returned
by transform_poses_pca is exactly 1. -/
theorem transform_poses_pca_scale_one (e : Eig3 K) (poses : List (M34 K))
    (hne : poses ≠ []) (hM : 0 < maxAbsT (pcaRec1 e poses)) :
    maxAbsT (transform_poses_pca e poses).1 = 1 := by
  show maxAbsT ((pcaRec1 e poses).map
    (fun p => ⟨p.lin, pcaScale e poses • p.t⟩)) = 1
  have hscale : (0 : K) ≤ pcaScale e poses := by
    unfold pcaScale
    exact le_of_lt (div_pos one_pos hM)
  rw [maxAbsT_scale (pcaScale e poses) hscale]
  unfold pcaScale
  field_simp

/-! Concrete evaluation of transform_poses_pca on pcaExPoses with the
oracle pcaExEig, stage by stage. -/

theorem pcaEx_mean : pcaMean pcaExPoses = 0 := by
  rw [Vec3.ext_iff]
  refine ⟨?_, ?_, ?_⟩ <;>
    (simp [pcaMean, pcaExPoses, vmean, vsum, List.foldr]; try norm_num)

theorem pcaEx_sortEigvec :
    sortEigvec pcaExEig = ⟨⟨1, 0, 0⟩, ⟨0, 0, 1⟩, ⟨0, 1, 0⟩⟩ := by
  rw [show sortEigvec pcaExEig =
    Mat3.ofCols (colOf pcaExEig.vec (argsort3 (8 : ℚ) 0 0).2.2)
      (colOf pcaExEig.vec (argsort3 (8 : ℚ) 0 0).2.1)
      (colOf pcaExEig.vec (argsort3 (8 : ℚ) 0 0).1) from rfl]
  rw [show argsort3 (8 : ℚ) 0 0 = (1, 2, 0) by
    unfold argsort3
    norm_num]
  rfl

theorem pcaEx_rot : pcaRot pcaExEig = ⟨⟨1, 0, 0⟩, ⟨0, 0, 1⟩, ⟨0, -1, 0⟩⟩ := by
  simp only [pcaRot, pcaEx_sortEigvec]
  rw [show Mat3.tr (⟨⟨1, 0, 0⟩, ⟨0, 0, 1⟩, ⟨0, 1, 0⟩⟩ : Mat3 ℚ) =
    ⟨⟨1, 0, 0⟩, ⟨0, 0, 1⟩, ⟨0, 1, 0⟩⟩ from rfl]
  rw [if_pos (by simp [Mat3.det])]
  rw [Mat3.ext_iff_mat]
  refine ⟨?_, ?_, ?_⟩ <;> rw [Vec3.ext_iff] <;>
    refine ⟨?_, ?_, ?_⟩ <;>
    (simp [Mat3.mul_def, Mat3.mul, Mat3.diag, Mat3.col0, Mat3.col1,
      Mat3.col2, Vec3.dot]; try norm_num)

theorem pcaEx_aff0 :
    pcaAff0 pcaExEig pcaExPoses = ⟨⟨⟨1, 0, 0⟩, ⟨0, 0, 1⟩, ⟨0, -1, 0⟩⟩, 0⟩ := by
  unfold pcaAff0
  rw [pcaEx_rot, pcaEx_mean]
  congr 1
  rw [Vec3.ext_iff]
  refine ⟨?_, ?_, ?_⟩ <;> simp [Mat3.mulVec, Vec3.dot]

theorem pcaEx_rec0 :
    pcaRec0 pcaExEig pcaExPoses =
      [⟨⟨⟨1, 0, 0⟩, ⟨0, 0, 1⟩, ⟨0, -1, 0⟩⟩, ⟨2, 0, 0⟩⟩,
       ⟨⟨⟨1, 0, 0⟩, ⟨0, 0, 1⟩, ⟨0, -1, 0⟩⟩, ⟨-2, 0, 0⟩⟩] := by
  unfold pcaRec0
  rw [pcaEx_aff0]
  rw [show pcaExPoses = [⟨1, ⟨2, 0, 0⟩⟩, ⟨1, ⟨-2, 0, 0⟩⟩] from rfl]
  rw [List.map_cons, List.map_cons, List.map_nil]
  unfold unpad_poses pad_poses M34.comp
  rw [List.cons.injEq, List.cons.injEq]
  refine ⟨?_, ?_, rfl⟩ <;>
    (rw [M34.mk.injEq]
     constructor
     · rw [Mat3.ext_iff_mat]
       refine ⟨?_, ?_, ?_⟩ <;> rw [Vec3.ext_iff] <;>
         refine ⟨?_, ?_, ?_⟩ <;>
         (simp [Mat3.mul_def, Mat3.mul, Mat3.col0, Mat3.col1,
           Mat3.col2, Vec3.dot]; try norm_num)
     · rw [Vec3.ext_iff]
       refine ⟨?_, ?_, ?_⟩ <;>
         (simp [Mat3.mulVec, Vec3.dot]; try norm_num))

theorem pcaEx_flip : pcaFlip pcaExEig pcaExPoses := by
  show (mmean ((pcaRec0 pcaExEig pcaExPoses).map (fun p => p.lin))).r2.y < 0
  rw [pcaEx_rec0]
  simp [mmean, msum, List.foldr]
  norm_num

theorem pcaEx_rec1 :
    pcaRec1 pcaExEig pcaExPoses =
      [⟨⟨⟨1, 0, 0⟩, ⟨0, 0, -1⟩, ⟨0, 1, 0⟩⟩, ⟨2, 0, 0⟩⟩,
       ⟨⟨⟨1, 0, 0⟩, ⟨0, 0, -1⟩, ⟨0, 1, 0⟩⟩, ⟨-2, 0, 0⟩⟩] := by
  unfold pcaRec1
  rw [if_pos pcaEx_flip, pcaEx_rec0]
  rw [List.map_cons, List.map_cons, List.map_nil]
  unfold M34.comp
  rw [List.cons.injEq, List.cons.injEq]
  refine ⟨?_, ?_, rfl⟩ <;>
    (rw [M34.mk.injEq]
     constructor
     · rw [Mat3.ext_iff_mat]
       refine ⟨?_, ?_, ?_⟩ <;> rw [Vec3.ext_iff] <;>
         refine ⟨?_, ?_, ?_⟩ <;>
         (simp [Mat3.mul_def, Mat3.mul, Mat3.diag, Mat3.col0, Mat3.col1,
           Mat3.col2, Vec3.dot]; try norm_num)
     · rw [Vec3.ext_iff]
       refine ⟨?_, ?_, ?_⟩ <;>
         (simp [Mat3.mulVec, Mat3.diag, Vec3.dot]; try norm_num))

theorem pcaEx_maxAbsT : maxAbsT (pcaRec1 pcaExEig pcaExPoses) = 2 := by
  rw [pcaEx_rec1]
  simp [maxAbsT, List.foldr]

theorem pcaEx_aff1 :
    pcaAff1 pcaExEig pcaExPoses =
      ⟨⟨⟨1, 0, 0⟩, ⟨0, 0, -1⟩, ⟨0, 1, 0⟩⟩, 0⟩ := by
  unfold pcaAff1
  rw [if_pos pcaEx_flip, pcaEx_aff0]
  unfold M34.comp
  rw [M34.mk.injEq]
  constructor
  · rw [Mat3.ext_iff_mat]
    refine ⟨?_, ?_, ?_⟩ <;> rw [Vec3.ext_iff] <;>
      refine ⟨?_, ?_, ?_⟩ <;>
      (simp [Mat3.mul_def, Mat3.mul, Mat3.diag, Mat3.col0, Mat3.col1,
        Mat3.col2, Vec3.dot]; try norm_num)
  · rw [Vec3.ext_iff]
    refine ⟨?_, ?_, ?_⟩ <;>
      (simp [Mat3.mulVec, Mat3.diag, Vec3.dot]; try norm_num)

theorem pcaEx_scale : pcaScale pcaExEig pcaExPoses = 1 / 2 := by
  unfold pcaScale
  rw [pcaEx_maxAbsT]

theorem pcaEx_transform :
    (transform_poses_pca pcaExEig pcaExPoses).2 =
      ⟨⟨⟨1/2, 0, 0⟩, ⟨0, 0, -(1/2)⟩, ⟨0, 1/2, 0⟩⟩, 0⟩ := by
  show M34.comp ⟨Mat3.diag (pcaScale pcaExEig pcaExPoses)
    (pcaScale pcaExEig pcaExPoses) (pcaScale pcaExEig pcaExPoses), 0⟩
    (pcaAff1 pcaExEig pcaExPoses) = _
  rw [pcaEx_scale, pcaEx_aff1]
  unfold M34.comp
  rw [M34.mk.injEq]
  constructor
  · rw [Mat3.ext_iff_mat]
    refine ⟨?_, ?_, ?_⟩ <;> rw [Vec3.ext_iff] <;>
      refine ⟨?_, ?_, ?_⟩ <;>
      (simp [Mat3.mul_def, Mat3.mul, Mat3.diag, Mat3.col0, Mat3.col1,
        Mat3.col2, Vec3.dot]; try norm_num)
  · rw [Vec3.ext_iff]
    refine ⟨?_, ?_, ?_⟩ <;>
      (simp [Mat3.mulVec, Mat3.diag, Vec3.dot]; try norm_num)

theorem pcaEx_rec :
    (transform_poses_pca pcaExEig pcaExPoses).1 =
      [⟨⟨⟨1, 0, 0⟩, ⟨0, 0, -1⟩, ⟨0, 1, 0⟩⟩, ⟨1, 0, 0⟩⟩,
       ⟨⟨⟨1, 0, 0⟩, ⟨0, 0, -1⟩, ⟨0, 1, 0⟩⟩, ⟨-1, 0, 0⟩⟩] := by
  rw [show (transform_poses_pca pcaExEig pcaExPoses).1 =
    (pcaRec1 pcaExEig pcaExPoses).map
      (fun p => (⟨p.lin, pcaScale pcaExEig pcaExPoses • p.t⟩ : M34 ℚ)) from rfl]
  rw [pcaEx_rec1, pcaEx_scale]
  rw [List.map_cons, List.map_cons, List.map_nil]
  rw [List.cons.injEq, List.cons.injEq]
  refine ⟨?_, ?_, rfl⟩ <;>
    (rw [M34.mk.injEq]
     refine ⟨rfl, ?_⟩
     rw [Vec3.ext_iff]
     refine ⟨?_, ?_, ?_⟩ <;> (simp; try norm_num))

theorem pcaEx_cov : pcaCov pcaExPoses = Mat3.diag 8 0 0 := by
  unfold pcaCov
  rw [pcaEx_mean]
  rw [Mat3.ext_iff_mat]
  refine ⟨?_, ?_, ?_⟩ <;> rw [Vec3.ext_iff] <;>
    refine ⟨?_, ?_, ?_⟩ <;>
    (simp [pcaExPoses, msum, List.foldr, Mat3.outer, Mat3.diag]; try norm_num)

theorem pcaEx_roundtrip_first :
    unpad_poses (M34.comp (M34.inv (transform_poses_pca pcaExEig pcaExPoses).2)
      (pad_poses ⟨⟨⟨1, 0, 0⟩, ⟨0, 0, -1⟩, ⟨0, 1, 0⟩⟩, ⟨1, 0, 0⟩⟩)) =
    ⟨⟨⟨2, 0, 0⟩, ⟨0, 2, 0⟩, ⟨0, 0, 2⟩⟩, ⟨2, 0, 0⟩⟩ := by
  rw [pcaEx_transform]
  unfold unpad_poses pad_poses M34.inv M34.comp Mat3.inv
  rw [M34.mk.injEq]
  constructor
  · rw [Mat3.ext_iff_mat]
    refine ⟨?_, ?_, ?_⟩ <;> rw [Vec3.ext_iff] <;>
      refine ⟨?_, ?_, ?_⟩ <;>
      (simp [Mat3.mul_def, Mat3.mul, Mat3.adj, Mat3.det, Mat3.col0,
        Mat3.col1, Mat3.col2, Vec3.dot]; try norm_num)
  · rw [Vec3.ext_iff]
    refine ⟨?_, ?_, ?_⟩ <;>
      (simp [Mat3.mulVec, Mat3.adj, Mat3.det, Vec3.dot]; try norm_num)

theorem zip_map_self {A B : Type} (f : A → B) (l : List A) :
    l.zip (l.map f) = l.map (fun a => (a, f a)) := by
  induction l with
  | nil => rfl
  | cons a t ih => simp [ih]

/-- C1 (amended): applying the inverse of the returned 4x4 transform to the
homogeneous-padded recentered poses reproduces the translation columns
exactly, but multiplies every 3x3 rotation block by the maximum absolute
recentered translation coordinate (the reciprocal of the scale factor):
the final scale step divides only the translations while the returned
transform carries the scale on the whole 3x3 block, so the full round trip
holds exactly when that maximum equals 1. -/
theorem transform_poses_pca_roundtrip (e : Eig3 K) (poses : List (M34 K))
    (hV : Mat3.tr e.vec * e.vec = 1)
    (hM : 0 < maxAbsT (pcaRec1 e poses)) :
    ∀ pr ∈ poses.zip (transform_poses_pca e poses).1,
      unpad_poses (M34.comp (M34.inv (transform_poses_pca e poses).2)
          (pad_poses pr.2)) =
        ⟨maxAbsT (pcaRec1 e poses) • pr.1.lin, pr.1.t⟩ := by
  have hMne : maxAbsT (pcaRec1 e poses) ≠ 0 := ne_of_gt hM
  have hsne : pcaScale e poses ≠ 0 := by
    unfold pcaScale
    exact one_div_ne_zero hMne
  have hrec : (transform_poses_pca e poses).1 =
      poses.map (fun p => ⟨(M34.comp (pcaAff1 e poses) p).lin,
        pcaScale e poses • (M34.comp (pcaAff1 e poses) p).t⟩) := by
    show (pcaRec1 e poses).map _ = _
    rw [pcaRec1_eq, List.map_map]
    rfl
  have hT : (transform_poses_pca e poses).2 =
      ⟨pcaScale e poses • (pcaAff1 e poses).lin,
       pcaScale e poses • (pcaAff1 e poses).t⟩ := by
    show M34.comp ⟨Mat3.diag (pcaScale e poses) (pcaScale e poses)
      (pcaScale e poses), 0⟩ (pcaAff1 e poses) = _
    unfold M34.comp
    rw [Mat3.diag_mul_eq_smul, Mat3.diag_mulVec_eq_smul, Vec3.add_zero_vec]
  intro pr hpr
  rw [hrec, zip_map_self] at hpr
  obtain ⟨p, hp, rfl⟩ := List.mem_map.mp hpr
  rw [hT]
  show M34.comp (M34.inv ⟨pcaScale e poses • (pcaAff1 e poses).lin,
    pcaScale e poses • (pcaAff1 e poses).t⟩)
    ⟨(pcaAff1 e poses).lin * p.lin,
     pcaScale e poses • ((pcaAff1 e poses).lin.mulVec p.t + (pcaAff1 e poses).t)⟩ =
    ⟨maxAbsT (pcaRec1 e poses) • p.lin, p.t⟩
  rw [affine_roundtrip (pcaAff1_lin_orth poses hV) hsne p]
  rw [M34.mk.injEq]
  refine ⟨?_, rfl⟩
  rw [show (1 : K) / pcaScale e poses = maxAbsT (pcaRec1 e poses) by
    unfold pcaScale
    rw [one_div_one_div]]

/-- C1 counterexample: on a concrete two-pose set with a valid eig oracle,
applying the inverse of the returned transform to the recentered poses
multiplies the rotation blocks by 2, so the original poses are not
reproduced. -/
theorem transform_poses_pca_roundtrip_cex :
    pcaExEig.Valid (pcaCov pcaExPoses) ∧
    ¬ (∀ pr ∈ pcaExPoses.zip (transform_poses_pca pcaExEig pcaExPoses).1,
        unpad_poses (M34.comp
            (M34.inv (transform_poses_pca pcaExEig pcaExPoses).2)
            (pad_poses pr.2)) = pr.1) := by
  constructor
  · constructor
    · exact Mat3.orth_one
    · rw [pcaEx_cov]
      show Mat3.diag 8 0 0 = 1 * Mat3.diag 8 0 0 * Mat3.tr 1
      rw [Mat3.one_mul]
      rw [show Mat3.tr (1 : Mat3 ℚ) = 1 from rfl]
      rw [Mat3.mul_one]
  · intro hall
    have hmem : ((⟨1, ⟨2, 0, 0⟩⟩ : M34 ℚ),
        (⟨⟨⟨1, 0, 0⟩, ⟨0, 0, -1⟩, ⟨0, 1, 0⟩⟩, ⟨1, 0, 0⟩⟩ : M34 ℚ)) ∈
        pcaExPoses.zip (transform_poses_pca pcaExEig pcaExPoses).1 := by
      rw [pcaEx_rec]
      simp [pcaExPoses]
    have hres := hall _ hmem
    rw [pcaEx_roundtrip_first] at hres
    have hbad := congrArg (fun q : M34 ℚ => q.lin.r0.x) hres
    simp at hbad

/-- Witness for the amended C1 at the concrete two-pose set. -/
theorem transform_poses_pca_roundtrip_witness :
    (Mat3.tr pcaExEig.vec * pcaExEig.vec = 1) ∧
    (0 < maxAbsT (pcaRec1 pcaExEig pcaExPoses)) ∧
    ∀ pr ∈ pcaExPoses.zip (transform_poses_pca pcaExEig pcaExPoses).1,
      unpad_poses (M34.comp (M34.inv (transform_poses_pca pcaExEig pcaExPoses).2)
          (pad_poses pr.2)) =
        ⟨maxAbsT (pcaRec1 pcaExEig pcaExPoses) • pr.1.lin, pr.1.t⟩ := by
  have h1 : Mat3.tr pcaExEig.vec * pcaExEig.vec = 1 := Mat3.orth_one
  have h2 : 0 < maxAbsT (pcaRec1 pcaExEig pcaExPoses) := by
    rw [pcaEx_maxAbsT]
    norm_num
  exact ⟨h1, h2, transform_poses_pca_roundtrip _ _ h1 h2⟩

/-! Lemmas for the focus-point scenario. -/

theorem vec3_sub_self (a : Vec3 K) : a - a = 0 := by
  rw [Vec3.ext_iff]
  refine ⟨?_, ?_, ?_⟩ <;> (simp only [Vec3.sub_def, Vec3.zero_def]; ring)

@[simp] theorem Mat3.col0_ofCols (a b c : Vec3 K) : Mat3.col0 (Mat3.ofCols a b c) = a := rfl

@[simp] theorem Mat3.col1_ofCols (a b c : Vec3 K) : Mat3.col1 (Mat3.ofCols a b c) = b := rfl

@[simp] theorem Mat3.col2_ofCols (a b c : Vec3 K) : Mat3.col2 (Mat3.ofCols a b c) = c := rfl

/-- The rank-2 projector I - d d^T subtracts the component along d. -/
theorem proj_mulVec (d p : Vec3 K) :
    ((1 : Mat3 K) - Mat3.outer d d).mulVec p = p - Vec3.dot d p • d := by
  rw [Vec3.ext_iff]
  refine ⟨?_, ?_, ?_⟩ <;>
    (simp only [Mat3.mulVec, Mat3.sub_def_mat, Mat3.one_def, Mat3.outer,
      Vec3.dot, Vec3.sub_def, Vec3.smul_def]; ring)

/-- A pose whose viewing ray passes through the solution point contributes
zero to the right-hand side of the focus normal equations. -/
theorem focus_term_zero {d p : Vec3 K} (h : Vec3.dot d p • d = p) :
    (Mat3.tr ((1 : Mat3 K) - Mat3.outer d d) *
      ((1 : Mat3 K) - Mat3.outer d d)).mulVec p = 0 := by
  rw [← Mat3.mulVec_mulVec, proj_mulVec, h, vec3_sub_self, Mat3.mulVec_zero]

/-- The focus point of the square scenario is the origin, for any value of
the square-root-of-two parameter. -/
theorem focus_square_helper (s : K) (hs : s * s = 2) :
    focus_point_fn (squarePoses s) = 0 := by
  have h1 : Vec3.dot (⟨-(s/2), -(s/2), 0⟩ : Vec3 K) ⟨1/2, 1/2, 0⟩ •
      (⟨-(s/2), -(s/2), 0⟩ : Vec3 K) = ⟨1/2, 1/2, 0⟩ := by
    rw [Vec3.ext_iff]
    refine ⟨?_, ?_, ?_⟩ <;>
      (simp only [Vec3.dot, Vec3.smul_def]
       first
       | ring1
       | linear_combination (1/4 : K) * hs
       | linear_combination (-1/4 : K) * hs)
  have h2 : Vec3.dot (⟨s/2, s/2, 0⟩ : Vec3 K) ⟨-(1/2), -(1/2), 0⟩ •
      (⟨s/2, s/2, 0⟩ : Vec3 K) = ⟨-(1/2), -(1/2), 0⟩ := by
    rw [Vec3.ext_iff]
    refine ⟨?_, ?_, ?_⟩ <;>
      (simp only [Vec3.dot, Vec3.smul_def]
       first
       | ring1
       | linear_combination (1/4 : K) * hs
       | linear_combination (-1/4 : K) * hs)
  have h3 : Vec3.dot (⟨-(s/2), s/2, 0⟩ : Vec3 K) ⟨1/2, -(1/2), 0⟩ •
      (⟨-(s/2), s/2, 0⟩ : Vec3 K) = ⟨1/2, -(1/2), 0⟩ := by
    rw [Vec3.ext_iff]
    refine ⟨?_, ?_, ?_⟩ <;>
      (simp only [Vec3.dot, Vec3.smul_def]
       first
       | ring1
       | linear_combination (1/4 : K) * hs
       | linear_combination (-1/4 : K) * hs)
  have h4 : Vec3.dot (⟨s/2, -(s/2), 0⟩ : Vec3 K) ⟨-(1/2), 1/2, 0⟩ •
      (⟨s/2, -(s/2), 0⟩ : Vec3 K) = ⟨-(1/2), 1/2, 0⟩ := by
    rw [Vec3.ext_iff]
    refine ⟨?_, ?_, ?_⟩ <;>
      (simp only [Vec3.dot, Vec3.smul_def]
       first
       | ring1
       | linear_combination (1/4 : K) * hs
       | linear_combination (-1/4 : K) * hs)
  simp only [focus_point_fn, squarePoses, List.map_cons, List.map_nil,
    List.zip_cons_cons, List.zip_nil_right, Mat3.col2_ofCols]
  rw [focus_term_zero h1, focus_term_zero h2, focus_term_zero h3,
    focus_term_zero h4]
  rw [show vmean [(0 : Vec3 K), 0, 0, 0] = 0 by
    rw [Vec3.ext_iff]
    refine ⟨?_, ?_, ?_⟩ <;> simp [vmean, vsum, List.foldr]]
  exact Mat3.mulVec_zero _

/-- C5: the four poses at the corners of the unit square in the XY plane,
all viewing axes pointed at the origin, give focus_point_fn exactly
(0, 0, 0) (within any tolerance). -/
theorem focus_point_fn_square :
    focus_point_fn (squarePoses (Real.sqrt 2)) = 0 :=
  focus_square_helper (Real.sqrt 2) (Real.mul_self_sqrt (by norm_num))

/-! Lemmas for the empty-input behaviour. -/

theorem vec3_cross_zero_left (v : Vec3 K) : Vec3.cross 0 v = 0 := by
  rw [Vec3.ext_iff]
  refine ⟨?_, ?_, ?_⟩ <;> (simp only [Vec3.cross, Vec3.zero_def]; ring)

theorem normalize_zero (f : K → K) : normalize f (0 : Vec3 K) = 0 :=
  Vec3.smul_zero_vec _

theorem vmean_nil : vmean ([] : List (Vec3 K)) = 0 := by
  rw [Vec3.ext_iff]
  refine ⟨?_, ?_, ?_⟩ <;> simp [vmean, vsum]

/-- average_pose on no poses builds a frame out of empty means: an
all-zero degenerate pose, with no error raised. -/
theorem average_pose_nil :
    average_pose Real.sqrt ([] : List (M34 ℝ)) = ⟨Mat3.ofCols 0 0 0, 0⟩ := by
  show viewmatrix Real.sqrt (vmean ((([] : List (M34 ℝ))).map _))
    (vmean (([] : List (M34 ℝ)).map _)) (vmean (([] : List (M34 ℝ)).map _)) = _
  simp only [List.map_nil, vmean_nil, viewmatrix_lin, normalize_zero,
    vec3_cross_zero_left]

/-- C8 counterexample: average_pose called with zero poses returns a
degenerate all-zero frame; the aggregation functions carry no emptiness
check and no typed failure. -/
theorem average_pose_empty_cex :
    average_pose Real.sqrt ([] : List (M34 ℝ)) = ⟨Mat3.ofCols 0 0 0, 0⟩ :=
  average_pose_nil

/-- C8 (amended): none of average_pose, focus_point_fn and
transform_poses_pca rejects an empty pose set; there is no emptiness check
and no EmptyInputError.  Each function totals through the empty mean
reductions (nan in numpy, 0 in this exact model): average_pose returns the
degenerate all-zero frame, focus_point_fn returns the zero vector, and
transform_poses_pca returns an empty recentered list with whatever
transform the empty statistics give. -/
theorem empty_input_not_rejected :
    average_pose Real.sqrt ([] : List (M34 ℝ)) = ⟨Mat3.ofCols 0 0 0, 0⟩ ∧
    focus_point_fn ([] : List (M34 ℝ)) = 0 ∧
    (transform_poses_pca (⟨0, 1⟩ : Eig3 ℝ) []).1 = [] := by
  refine ⟨average_pose_nil, ?_, ?_⟩
  · show (Mat3.inv (mmean _)).mulVec (vmean _) = 0
    simp only [List.map_nil, List.zip_nil_left, List.zip_nil_right, vmean_nil]
    exact Mat3.mulVec_zero _
  · show (pcaRec1 (⟨0, 1⟩ : Eig3 ℝ) []).map _ = []
    rw [pcaRec1_eq]
    rfl

/-! Lemmas for the spherify radicand. -/

/-- Cauchy-Schwarz for a list against the all-ones weights. -/
theorem list_sq_sum_le (l : List ℝ) :
    l.sum ^ 2 ≤ (l.length : ℝ) * (l.map (fun z => z ^ 2)).sum := by
  induction l with
  | nil => simp
  | cons a t ih =>
      simp only [List.sum_cons, List.map_cons, List.length_cons]
      push_cast
      have ht : (0 : ℝ) ≤ (t.map (fun z => z ^ 2)).sum := by
        apply List.sum_nonneg
        intro x hx
        obtain ⟨y, _, rfl⟩ := List.mem_map.mp hx
        positivity
      rcases Nat.eq_zero_or_pos t.length with h0 | h0
      · have ht0 : t = [] := List.length_eq_zero.mp h0
        subst ht0
        simp
      · have hnpos : (0 : ℝ) < (t.length : ℝ) := by exact_mod_cast h0
        nlinarith [sq_nonneg ((t.length : ℝ) * a - t.sum), ih, ht, hnpos,
          mul_le_mul_of_nonneg_left ih (le_of_lt hnpos)]

theorem vsum_z (l : List (Vec3 K)) :
    (vsum l).z = (l.map (fun v => v.z)).sum := by
  induction l with
  | nil => rfl
  | cons v t ih =>
      show (v + vsum t).z = v.z + (t.map (fun v => v.z)).sum
      rw [← ih]
      rfl

theorem dot_self_ge_z_sq (v : Vec3 K) : v.z ^ 2 ≤ Vec3.dot v v := by
  simp only [Vec3.dot]
  nlinarith [mul_self_nonneg v.x, mul_self_nonneg v.y]

theorem sum_map_smul_z (rinv : ℝ) (L : List (M34 ℝ)) :
    (vsum (L.map (fun p => rinv • p.t))).z =
      rinv * (L.map (fun p => p.t.z)).sum := by
  induction L with
  | nil => simp [vsum]
  | cons p t ih =>
      simp only [List.map_cons, List.sum_cons]
      rw [show (vsum ((rinv • p.t) :: t.map (fun p => rinv • p.t))).z =
        rinv * p.t.z + (vsum (t.map (fun p => rinv • p.t))).z from rfl, ih]
      ring

/-- The radicand of the orbit radius of generate_spherify_path is never
negative: after the RMS rescale, the centroid height is at most the RMS
radius by Cauchy-Schwarz. -/
theorem sphRadicand_nonneg_core (c : TrigCtx ℝ) (hs : c.sqrt = Real.sqrt)
    (views : List (View ℝ)) : 0 ≤ sphRadicand c views := by
  unfold sphRadicand sphRadScaled sphZh sphResetScaled
  have hrad : sphRad c views =
      Real.sqrt (kmean ((sphReset c views).map
        (fun p => Vec3.dot p.t p.t))) := by
    unfold sphRad
    rw [hs]
  set L := sphReset c views with hL
  set ds := L.map (fun p => Vec3.dot p.t p.t) with hds
  have hdnn : ∀ d ∈ ds, (0 : ℝ) ≤ d := by
    intro d hd
    obtain ⟨p, _, rfl⟩ := List.mem_map.mp hd
    exact Vec3.dot_nonneg_self p.t
  have hx : (0 : ℝ) ≤ kmean ds :=
    div_nonneg (List.sum_nonneg hdnn) (Nat.cast_nonneg _)
  set x := kmean ds with hxdef
  set r := sphRad c views with hrdef
  have hr0 : 0 ≤ r := by
    rw [hrad]
    exact Real.sqrt_nonneg _
  have hmap : (L.map (fun p => (⟨p.lin, (1 / r) • p.t⟩ : M34 ℝ))).map
      (fun p => p.t) = L.map (fun p => (1 / r) • p.t) := by
    rw [List.map_map]
    rfl
  rw [hmap]
  have hzmean : (vmean (L.map (fun p => (1 / r) • p.t))).z =
      ((1 / r) * (L.map (fun p => p.t.z)).sum) / (L.length : ℝ) := by
    show ((L.map (fun p => (1 / r) • p.t)).length : ℝ)⁻¹ *
      (vsum (L.map (fun p => (1 / r) • p.t))).z = _
    rw [sum_map_smul_z, List.length_map, inv_mul_eq_div]
  rw [hzmean]
  rcases eq_or_lt_of_le hr0 with hr | hr
  · rw [← hr]
    norm_num
  · have hrne : r ≠ 0 := ne_of_gt hr
    have hr1 : r * (1 / r) = 1 := by field_simp
    rw [hr1]
    have hx2 : r ^ 2 = x := by
      rw [hrad]
      exact Real.sq_sqrt hx
    have hxpos : 0 < x := by
      rw [← hx2]
      positivity
    have hn : L ≠ [] := by
      intro hnil
      rw [hds, hnil] at hxdef
      simp [kmean] at hxdef
      rw [hxdef] at hxpos
      exact lt_irrefl 0 hxpos
    have hnpos : (0 : ℝ) < (L.length : ℝ) := by
      have := List.length_pos.mpr hn
      exact_mod_cast this
    set S := (L.map (fun p => p.t.z)).sum with hS
    have hz2 : S ^ 2 ≤ (L.length : ℝ) * ((L.map (fun p => p.t.z)).map
        (fun z => z ^ 2)).sum := by
      rw [hS, ← List.length_map L (fun p => p.t.z)]
      exact list_sq_sum_le _
    have hzd : ((L.map (fun p => p.t.z)).map (fun z => z ^ 2)).sum ≤
        ds.sum := by
      rw [List.map_map, hds]
      apply List.sum_le_sum
      intro p _
      exact dot_self_ge_z_sq p.t
    have hsum : ds.sum = x * (L.length : ℝ) := by
      rw [hxdef]
      unfold kmean
      rw [hds]
      rw [List.length_map]
      field_simp
    have hkey : S ^ 2 ≤ x * (L.length : ℝ) ^ 2 := by
      calc S ^ 2 ≤ (L.length : ℝ) * ((L.map (fun p => p.t.z)).map
            (fun z => z ^ 2)).sum := hz2
        _ ≤ (L.length : ℝ) * ds.sum := by
            apply mul_le_mul_of_nonneg_left hzd (le_of_lt hnpos)
        _ = x * (L.length : ℝ) ^ 2 := by
            rw [hsum]; ring
    have hfin : ((1 / r) * S / (L.length : ℝ)) ^ 2 ≤ 1 := by
      have heq : ((1 / r) * S / (L.length : ℝ)) ^ 2 =
          S ^ 2 / (x * (L.length : ℝ) ^ 2) := by
        rw [div_pow, mul_pow, div_pow, one_pow, hx2]
        ring
      rw [heq, div_le_one (by positivity)]
      exact hkey
    nlinarith [hfin]

/-- C9 (amended): the degenerate spherify branch is unreachable.  For
every input view set the radicand rad^2 - zh^2 under the orbit-radius
square root of generate_spherify_path is nonnegative: after the RMS
rescale the centroid height obeys zh^2 <= rad^2 by Cauchy-Schwarz, so the
radius is at worst zero (all rescaled camera centres on the z axis) and
never imaginary. -/
theorem generate_spherify_path_radicand_nonneg (c : TrigCtx ℝ)
    (hs : c.sqrt = Real.sqrt) (views : List (View ℝ)) :
    0 ≤ sphRadicand c views :=
  sphRadicand_nonneg_core c hs views

/-- C9 counterexample to the claim as stated: no input pose set makes the
spherify radicand negative. -/
theorem generate_spherify_path_radicand_cex :
    ¬ ∃ (c : TrigCtx ℝ) (views : List (View ℝ)),
        c.sqrt = Real.sqrt ∧ sphRadicand c views < 0 := by
  rintro ⟨c, views, hs, hlt⟩
  exact absurd (sphRadicand_nonneg_core c hs views) (not_le.mpr hlt)

/-- Witness for the amended C9 at a concrete context and view list. -/
theorem generate_spherify_path_radicand_witness :
    (TrigCtx.sqrt ⟨Real.sqrt, Real.cos, Real.sin, Real.log, Real.exp,
      2 * Real.pi⟩ = Real.sqrt) ∧
    0 ≤ sphRadicand ⟨Real.sqrt, Real.cos, Real.sin, Real.log, Real.exp,
      2 * Real.pi⟩ [⟨1, 0, 1⟩] :=
  ⟨rfl, generate_spherify_path_radicand_nonneg _ rfl _⟩

/-- Frames of the spherify orbit agree whenever the trigonometric values
of their angles agree. -/
theorem sphFrame_congr (c : TrigCtx ℝ) (radcircle zh : ℝ) {a b : ℝ}
    (h1 : c.cos a = c.cos b) (h2 : c.sin a = c.sin b) :
    sphFrame c radcircle zh a = sphFrame c radcircle zh b := by
  unfold sphFrame
  rw [h1, h2]

/-- C10: generate_spherify_path returns exactly 120 poses whatever the
input views (the frame count is hard-coded, not a parameter), and because
the orbit angle grid covers [0, 2 pi] inclusively, the first and the last
returned poses coincide. -/
theorem generate_spherify_path_frames (c : TrigCtx ℝ)
    (hcos : c.cos = Real.cos) (hsin : c.sin = Real.sin)
    (htp : c.twoPi = 2 * Real.pi) (views : List (View ℝ))
    (hne : views ≠ []) :
    (generate_spherify_path c views).length = 120 ∧
    (generate_spherify_path c views)[0]? =
      (generate_spherify_path c views)[119]? := by
  constructor
  · show ((linspace 0 c.twoPi 120).map _).length = 120
    rw [List.length_map]
    unfold linspace
    rw [List.length_map, List.length_range]
  · show ((linspace 0 c.twoPi 120).map
      (sphFrame c (sphRadcircle c views) (sphZh c views)))[0]? =
      ((linspace 0 c.twoPi 120).map
      (sphFrame c (sphRadcircle c views) (sphZh c views)))[119]?
    unfold linspace
    rw [List.map_map, List.getElem?_map, List.getElem?_map,
      List.getElem?_range (by norm_num : 0 < 120),
      List.getElem?_range (by norm_num : 119 < 120)]
    simp only [Option.map_some', Function.comp_apply]
    congr 1
    have h0 : (0 : ℝ) + (c.twoPi - 0) * ((0 : ℕ) : ℝ) / ((120 : ℕ) - 1 : ℝ)
        = 0 := by
      push_cast
      ring
    have h119 : (0 : ℝ) + (c.twoPi - 0) * ((119 : ℕ) : ℝ) / ((120 : ℕ) - 1 : ℝ)
        = c.twoPi := by
      push_cast
      norm_num
    rw [h0, h119]
    apply sphFrame_congr
    · rw [hcos, htp, Real.cos_zero, Real.cos_two_pi]
    · rw [hsin, htp, Real.sin_zero, Real.sin_two_pi]

/-- Witness for C10 at a concrete context and a one-view list. -/
theorem generate_spherify_path_frames_witness :
    (TrigCtx.cos ⟨Real.sqrt, Real.cos, Real.sin, Real.log, Real.exp,
        2 * Real.pi⟩ = Real.cos) ∧
    (TrigCtx.sin ⟨Real.sqrt, Real.cos, Real.sin, Real.log, Real.exp,
        2 * Real.pi⟩ = Real.sin) ∧
    (TrigCtx.twoPi ⟨Real.sqrt, Real.cos, Real.sin, Real.log, Real.exp,
        2 * Real.pi⟩ = 2 * Real.pi) ∧
    (([⟨1, 0, 1⟩] : List (View ℝ)) ≠ []) ∧
    ((generate_spherify_path ⟨Real.sqrt, Real.cos, Real.sin, Real.log,
        Real.exp, 2 * Real.pi⟩ [⟨1, 0, 1⟩]).length = 120 ∧
     (generate_spherify_path ⟨Real.sqrt, Real.cos, Real.sin, Real.log,
        Real.exp, 2 * Real.pi⟩ [⟨1, 0, 1⟩])[0]? =
       (generate_spherify_path ⟨Real.sqrt, Real.cos, Real.sin, Real.log,
        Real.exp, 2 * Real.pi⟩ [⟨1, 0, 1⟩])[119]?) :=
  ⟨rfl, rfl, rfl, by simp,
    generate_spherify_path_frames _ rfl rfl rfl _ (by simp)⟩

/-! Lemmas for the ellipse generator. -/

theorem Mat3.tr_smul (c : K) (a : Mat3 K) :
    Mat3.tr (c • a) = c • Mat3.tr a := by
  rw [Mat3.ext_iff_mat]
  refine ⟨?_, ?_, ?_⟩ <;> rw [Vec3.ext_iff] <;>
    refine ⟨?_, ?_, ?_⟩ <;>
    simp only [Mat3.tr, Mat3.ofCols, Mat3.smul_def_mat, Vec3.smul_def]

theorem flipYZ_mul_self : Mat3.diag (1 : K) (-1) (-1) * Mat3.diag 1 (-1) (-1) = 1 := by
  rw [Mat3.diag_mul_diag]
  norm_num [Mat3.diag_one]

/-- The transform returned by transform_poses_pca, written as the uniform
scale of the orthogonal stage-1 transform. -/
theorem transform_poses_pca_snd (e : Eig3 K) (poses : List (M34 K)) :
    (transform_poses_pca e poses).2 =
      ⟨pcaScale e poses • (pcaAff1 e poses).lin,
       pcaScale e poses • (pcaAff1 e poses).t⟩ := by
  show M34.comp ⟨Mat3.diag (pcaScale e poses) (pcaScale e poses)
    (pcaScale e poses), 0⟩ (pcaAff1 e poses) = _
  unfold M34.comp
  rw [Mat3.diag_mul_eq_smul, Mat3.diag_mulVec_eq_smul, Vec3.add_zero_vec]

/-- The sandwich product of an orthogonal frame, its inverse transform and
the convention flip collapses to the identity. -/
theorem sandwich_eq_one {D R Q : Mat3 K} (hQQ : Q * Mat3.tr Q = 1)
    (hR : Mat3.tr R * R = 1) (hDD : D * D = 1) :
    D * Mat3.tr R * Q * (Mat3.tr Q * R * D) = 1 := by
  simp only [Mat3.mul_assoc]
  rw [← Mat3.mul_assoc Q (Mat3.tr Q) (R * D), hQQ, Mat3.one_mul]
  rw [← Mat3.mul_assoc (Mat3.tr R) R D, hR, Mat3.one_mul, hDD]

/-- The linear block of one rendered ellipse pose, given the nondegeneracy
of its viewmatrix call: a uniform scale of an orthogonal matrix, with
scale factor equal to the PCA scale factor. -/
theorem ellRenderOne_lin_scaled_orth (c : TrigCtx K) {e : Eig3 K}
    {poses : List (M34 K)} (hV : Mat3.tr e.vec * e.vec = 1)
    (hM : 0 < maxAbsT (pcaRec1 e poses)) (center up p : Vec3 K)
    (hvm : Mat3.tr (viewmatrix c.sqrt (p - center) up p).lin *
      (viewmatrix c.sqrt (p - center) up p).lin = 1) :
    (ellRenderOne c (transform_poses_pca e poses).2 center up p).lin *
      Mat3.tr (ellRenderOne c (transform_poses_pca e poses).2 center up p).lin =
      pcaScale e poses ^ 2 • (1 : Mat3 K) := by
  have hsne : pcaScale e poses ≠ 0 := by
    unfold pcaScale
    exact one_div_ne_zero (ne_of_gt hM)
  set s := pcaScale e poses with hsdef
  set Q := (pcaAff1 e poses).lin with hQdef
  set R := (viewmatrix c.sqrt (p - center) up p).lin with hRdef
  have hQ : Mat3.tr Q * Q = 1 := pcaAff1_lin_orth poses hV
  have hQQ : Q * Mat3.tr Q = 1 := Mat3.mul_eq_one_of_mul_eq_one hQ
  set D := Mat3.diag (1 : K) (-1) (-1) with hDdef
  have hDD : D * D = 1 := flipYZ_mul_self
  have hDtr : Mat3.tr D = D := Mat3.tr_diag 1 (-1) (-1)
  have hlin3 : (M34.colFlipYZ (M34.comp
      (M34.inv (transform_poses_pca e poses).2)
      (viewmatrix c.sqrt (p - center) up p))).lin =
      (1 / s) • (Mat3.tr Q * R * D) := by
    rw [transform_poses_pca_snd]
    show Mat3.inv (s • Q) * R * D = _
    rw [Mat3.inv_smul_orth hQ hsne, Mat3.smul_mul, Mat3.smul_mul]
  have hfin : Mat3.inv ((1 / s) • (Mat3.tr Q * R * D)) =
      s • (D * Mat3.tr R * Q) := by
    apply Mat3.inv_eq_of_mul_eq_one
    rw [Mat3.smul_mul, Mat3.mul_smul_right, Mat3.smul_smul_mat]
    have hss : s * (1 / s) = 1 := by field_simp
    rw [hss, Mat3.one_smul_mat]
    exact sandwich_eq_one hQQ hvm hDD
  show Mat3.inv ((M34.colFlipYZ (M34.comp
      (M34.inv (transform_poses_pca e poses).2)
      (viewmatrix c.sqrt (p - center) up p))).lin) *
    Mat3.tr (Mat3.inv ((M34.colFlipYZ (M34.comp
      (M34.inv (transform_poses_pca e poses).2)
      (viewmatrix c.sqrt (p - center) up p))).lin)) = s ^ 2 • 1
  rw [hlin3, hfin]
  rw [Mat3.tr_smul]
  rw [show Mat3.tr (D * Mat3.tr R * Q) = Mat3.tr Q * (Mat3.tr (Mat3.tr R) * Mat3.tr D) by
    rw [Mat3.tr_mul, Mat3.tr_mul]]
  rw [Mat3.tr_tr, hDtr]
  rw [Mat3.smul_mul, Mat3.mul_smul_right, Mat3.smul_smul_mat]
  rw [show D * Mat3.tr R * Q * (Mat3.tr Q * (R * D)) =
    D * Mat3.tr R * Q * (Mat3.tr Q * R * D) by
    rw [Mat3.mul_assoc (Mat3.tr Q) R D]]
  rw [sandwich_eq_one hQQ hvm hDD]
  rw [sq]

/-- C6 (amended): every pose returned by generate_ellipse_path has a 3x3
block M satisfying M * M^T = scale_factor^2 * I, where scale_factor is the
PCA scale factor: the blocks are uniform scalings of orthogonal
right-handed matrices, orthonormal exactly when the scale factor is 1,
because the final render loop composes the orthonormal viewmatrix frame
with the inverse of the scale-carrying PCA transform. -/
theorem generate_ellipse_path_scaled_orth (c : TrigCtx ℝ)
    (hs : c.sqrt = Real.sqrt) (e : Eig3 ℝ) (views : List (View ℝ))
    (n_frames : ℕ) (const_speed : Bool) (zv zp : ℝ)
    (hV : Mat3.tr e.vec * e.vec = 1)
    (hM : 0 < maxAbsT (pcaRec1 e (ellPoses views)))
    (hpos : ∀ p ∈ ellPositions c e views n_frames const_speed zv zp,
      p - ellCenter e views ≠ 0 ∧
      Vec3.cross (ellUp c e views) (p - ellCenter e views) ≠ 0) :
    ∀ rp ∈ generate_ellipse_path c e views n_frames const_speed zv zp,
      rp.lin * Mat3.tr rp.lin =
        pcaScale e (ellPoses views) ^ 2 • (1 : Mat3 ℝ) := by
  intro rp hrp
  obtain ⟨p, hp, rfl⟩ := List.mem_map.mp hrp
  obtain ⟨hz, hw⟩ := hpos p hp
  have hvm : Mat3.tr (viewmatrix c.sqrt (p - ellCenter e views)
      (ellUp c e views) p).lin *
      (viewmatrix c.sqrt (p - ellCenter e views) (ellUp c e views) p).lin
      = 1 := by
    rw [hs]
    exact viewmatrix_orth hz (cross_normalize_ne_zero hz hw)
  exact ellRenderOne_lin_scaled_orth c hV hM (ellCenter e views)
    (ellUp c e views) p hvm

/-- Witness for C2 at the concrete two-pose set. -/
theorem transform_poses_pca_scale_one_witness :
    (pcaExPoses ≠ []) ∧ (0 < maxAbsT (pcaRec1 pcaExEig pcaExPoses)) ∧
    maxAbsT (transform_poses_pca pcaExEig pcaExPoses).1 = 1 := by
  have h1 : pcaExPoses ≠ [] := by simp [pcaExPoses]
  have h2 : 0 < maxAbsT (pcaRec1 pcaExEig pcaExPoses) := by
    rw [pcaEx_maxAbsT]
    norm_num
  exact ⟨h1, h2, transform_poses_pca_scale_one _ _ h1 h2⟩

/-! Concrete evaluation of the generate_ellipse_path pipeline on
ellExViews with the oracle ellExEig, stage by stage. -/

theorem M34.comp_id (p : M34 K) : M34.comp ⟨1, 0⟩ p = p := by
  unfold M34.comp
  rw [Mat3.one_mul, M34.mk.injEq]
  refine ⟨rfl, ?_⟩
  rw [Vec3.ext_iff]
  refine ⟨?_, ?_, ?_⟩ <;> (simp [Mat3.mulVec, Vec3.dot]; try ring)

set_option maxHeartbeats 2000000 in
theorem ellEx_poses :
    ellPoses ellExViews =
      ([⟨⟨⟨1, 0, 0⟩, ⟨0, 1, 0⟩, ⟨0, 0, 1⟩⟩, ⟨2, 1, 0⟩⟩,
        ⟨⟨⟨3/5, 0, 4/5⟩, ⟨0, 1, 0⟩, ⟨-(4/5), 0, 3/5⟩⟩, ⟨-2, 1, 0⟩⟩,
        ⟨⟨⟨3/5, 0, -(4/5)⟩, ⟨0, 1, 0⟩, ⟨4/5, 0, 3/5⟩⟩, ⟨0, -2, 0⟩⟩] :
        List (M34 K)) := by
  unfold ellPoses ellExViews viewToPose M34.colFlipYZ M34.inv Mat3.inv
  rw [List.map_cons, List.map_cons, List.map_cons, List.map_nil]
  rw [List.cons.injEq, List.cons.injEq, List.cons.injEq]
  refine ⟨?_, ?_, ?_, rfl⟩ <;>
    (rw [M34.mk.injEq]
     constructor
     · rw [Mat3.ext_iff_mat]
       refine ⟨?_, ?_, ?_⟩ <;> rw [Vec3.ext_iff] <;>
         refine ⟨?_, ?_, ?_⟩ <;>
         (simp [Mat3.mul_def, Mat3.mul, Mat3.adj, Mat3.det, Mat3.diag,
           Mat3.tr, Mat3.ofCols, Mat3.col0, Mat3.col1, Mat3.col2,
           Vec3.dot]; try norm_num)
     · rw [Vec3.ext_iff]
       refine ⟨?_, ?_, ?_⟩ <;>
         (simp [Mat3.mulVec, Mat3.adj, Mat3.det, Mat3.tr, Mat3.ofCols,
           Vec3.dot]; try norm_num))

theorem ellEx_mean : pcaMean (ellPoses ellExViews) = (0 : Vec3 K) := by
  rw [ellEx_poses]
  rw [Vec3.ext_iff]
  refine ⟨?_, ?_, ?_⟩ <;>
    (simp [pcaMean, vmean, vsum, List.foldr]; try norm_num)

theorem ellEx_sortEigvec : sortEigvec ellExEig = (1 : Mat3 K) := by
  rw [show sortEigvec ellExEig =
    Mat3.ofCols (colOf (ellExEig : Eig3 K).vec (argsort3 (8 : K) 6 0).2.2)
      (colOf (ellExEig : Eig3 K).vec (argsort3 (8 : K) 6 0).2.1)
      (colOf (ellExEig : Eig3 K).vec (argsort3 (8 : K) 6 0).1) from rfl]
  rw [show argsort3 (8 : K) 6 0 = (2, 1, 0) by
    unfold argsort3
    norm_num]
  rfl

theorem ellEx_rot : pcaRot ellExEig = (1 : Mat3 K) := by
  simp only [pcaRot, ellEx_sortEigvec]
  rw [show Mat3.tr (1 : Mat3 K) = 1 from rfl]
  rw [if_neg (by rw [Mat3.det_one]; norm_num)]

theorem ellEx_aff0 :
    pcaAff0 ellExEig (ellPoses ellExViews) = (⟨1, 0⟩ : M34 K) := by
  unfold pcaAff0
  rw [ellEx_rot, ellEx_mean]
  rw [M34.mk.injEq]
  refine ⟨rfl, ?_⟩
  rw [show -(0 : Vec3 K) = 0 by simp]
  exact Mat3.mulVec_zero 1

theorem ellEx_rec0 :
    pcaRec0 ellExEig (ellPoses ellExViews) = ellPoses (ellExViews : List (View K)) := by
  unfold pcaRec0
  rw [ellEx_aff0]
  simp only [pad_poses, unpad_poses, M34.comp_id]
  exact List.map_id' (ellPoses ellExViews)

theorem ellEx_flip : ¬ pcaFlip ellExEig (ellPoses (ellExViews : List (View K))) := by
  show ¬ (mmean ((pcaRec0 ellExEig (ellPoses ellExViews)).map (fun p => p.lin))).r2.y < 0
  rw [ellEx_rec0, ellEx_poses]
  simp [mmean, msum, List.foldr]

theorem ellEx_rec1 :
    pcaRec1 ellExEig (ellPoses ellExViews) = ellPoses (ellExViews : List (View K)) := by
  unfold pcaRec1
  rw [if_neg ellEx_flip]
  exact ellEx_rec0

theorem ellEx_maxAbsT :
    maxAbsT (pcaRec1 ellExEig (ellPoses ellExViews)) = (2 : K) := by
  rw [ellEx_rec1, ellEx_poses]
  simp [maxAbsT, List.foldr]

theorem ellEx_hM : 0 < maxAbsT (pcaRec1 ellExEig (ellPoses (ellExViews : List (View K)))) := by
  rw [ellEx_maxAbsT]
  norm_num

theorem ellEx_scale : pcaScale ellExEig (ellPoses ellExViews) = (1/2 : K) := by
  unfold pcaScale
  rw [ellEx_maxAbsT]

theorem ellEx_cov : pcaCov (ellPoses ellExViews) = Mat3.diag (8 : K) 6 0 := by
  simp only [pcaCov]
  rw [ellEx_mean, ellEx_poses]
  rw [Mat3.ext_iff_mat]
  refine ⟨?_, ?_, ?_⟩ <;> rw [Vec3.ext_iff] <;>
    refine ⟨?_, ?_, ?_⟩ <;>
    (simp [msum, List.foldr, Mat3.outer, Mat3.diag]; try norm_num)

theorem ellEx_pca1 :
    (ellPca ellExEig ellExViews).1 =
      ([⟨⟨⟨1, 0, 0⟩, ⟨0, 1, 0⟩, ⟨0, 0, 1⟩⟩, ⟨1, 1/2, 0⟩⟩,
        ⟨⟨⟨3/5, 0, 4/5⟩, ⟨0, 1, 0⟩, ⟨-(4/5), 0, 3/5⟩⟩, ⟨-1, 1/2, 0⟩⟩,
        ⟨⟨⟨3/5, 0, -(4/5)⟩, ⟨0, 1, 0⟩, ⟨4/5, 0, 3/5⟩⟩, ⟨0, -1, 0⟩⟩] :
        List (M34 K)) := by
  rw [show (ellPca ellExEig ellExViews).1 =
    (pcaRec1 ellExEig (ellPoses ellExViews)).map
      (fun p => (⟨p.lin, pcaScale ellExEig (ellPoses ellExViews) • p.t⟩ :
        M34 K)) from rfl]
  rw [ellEx_rec1, ellEx_scale, ellEx_poses]
  rw [List.map_cons, List.map_cons, List.map_cons, List.map_nil]
  rw [List.cons.injEq, List.cons.injEq, List.cons.injEq]
  refine ⟨?_, ?_, ?_, rfl⟩ <;>
    (rw [M34.mk.injEq]
     refine ⟨rfl, ?_⟩
     rw [Vec3.ext_iff]
     refine ⟨?_, ?_, ?_⟩ <;> (simp; try norm_num))

set_option maxHeartbeats 2000000 in
theorem ellEx_center :
    ellCenter ellExEig ellExViews = (⟨16/43, 0, 3/8⟩ : Vec3 K) := by
  unfold ellCenter
  rw [ellEx_pca1]
  rw [Vec3.ext_iff]
  refine ⟨?_, ?_, ?_⟩ <;>
    (simp [focus_point_fn, mmean, msum, vmean, vsum, List.foldr, Mat3.outer,
      Mat3.mul, Mat3.tr, Mat3.ofCols, Mat3.col0, Mat3.col1, Mat3.col2,
      Mat3.mulVec, Mat3.inv, Mat3.adj, Mat3.det, Vec3.dot]; try norm_num)

theorem ellEx_offset :
    ellOffset ellExEig ellExViews = (⟨16/43, 0, 0⟩ : Vec3 K) := by
  unfold ellOffset
  rw [ellEx_center]
  rw [Vec3.ext_iff]
  refine ⟨rfl, rfl, ?_⟩
  simp

theorem percentile90_three (x1 x2 x3 s1 s2 s3 : K)
    (hsort : List.insertionSort (fun a b => a ≤ b) [x1, x2, x3] = [s1, s2, s3]) :
    percentile 90 [x1, x2, x3] = s2 + (4/5) * (s3 - s2) := by
  simp only [percentile]
  rw [hsort]
  rw [show ((90 : ℚ) * ((([x1, x2, x3] : List K).length : ℚ) - 1) / 100) = 9/5 by
    norm_num]
  rw [show ⌊(9/5 : ℚ)⌋₊ = 1 by
    rw [Nat.floor_eq_iff (by norm_num)]
    norm_num]
  rw [show (([s1, s2, s3] : List K).drop 1) = [s2, s3] from rfl]
  rw [show ((((9:ℚ)/5 - ((1 : ℕ) : ℚ)) : ℚ) : K) = 4/5 by push_cast; norm_num]

theorem ellEx_sc : ellSc ellExEig ellExViews = (⟨263/215, 9/10, 0⟩ : Vec3 K) := by
  simp only [ellSc]
  rw [ellEx_pca1, ellEx_offset]
  simp only [List.map_cons, List.map_nil, vabs, Vec3.sub_def]
  rw [show |(1 : K) - 16/43| = 27/43 by
    rw [abs_of_nonneg (by norm_num : (0:K) ≤ 1 - 16/43)]; norm_num]
  rw [show |(-1 : K) - 16/43| = 59/43 by
    rw [abs_of_nonpos (by norm_num : (-1 : K) - 16/43 ≤ 0)]; norm_num]
  rw [show |(0 : K) - 16/43| = 16/43 by
    rw [abs_of_nonpos (by norm_num : (0 : K) - 16/43 ≤ 0)]; norm_num]
  rw [show |(1 : K)/2 - 0| = 1/2 by
    rw [abs_of_nonneg (by norm_num : (0:K) ≤ 1/2 - 0)]; norm_num]
  rw [show |(-1 : K) - 0| = 1 by
    rw [abs_of_nonpos (by norm_num : (-1 : K) - 0 ≤ 0)]; norm_num]
  rw [show |(0 : K) - 0| = 0 by
    rw [abs_of_nonneg (by norm_num : (0:K) ≤ 0 - 0)]; norm_num]
  rw [Vec3.ext_iff]
  refine ⟨?_, ?_, ?_⟩
  · show percentile 90 [(27/43 : K), 59/43, 16/43] = 263/215
    rw [percentile90_three (27/43) (59/43) (16/43) (16/43) (27/43) (59/43)
      (by norm_num [List.insertionSort, List.orderedInsert])]
    norm_num
  · show percentile 90 [(1/2 : K), 1/2, 1] = 9/10
    rw [percentile90_three (1/2) (1/2) 1 (1/2) (1/2) 1
      (by norm_num [List.insertionSort, List.orderedInsert])]
    norm_num
  · show percentile 90 [(0 : K), 0, 0] = 0
    rw [percentile90_three 0 0 0 0 0 0
      (by norm_num [List.insertionSort, List.orderedInsert])]
    norm_num

theorem ellEx_low :
    ellLow ellExEig ellExViews = (⟨-(183/215), -(9/10), 0⟩ : Vec3 K) := by
  unfold ellLow
  rw [ellEx_sc, ellEx_offset]
  rw [Vec3.ext_iff]
  refine ⟨?_, ?_, ?_⟩ <;> (simp; try norm_num)

theorem ellEx_high :
    ellHigh ellExEig ellExViews = (⟨343/215, 9/10, 0⟩ : Vec3 K) := by
  unfold ellHigh
  rw [ellEx_sc, ellEx_offset]
  rw [Vec3.ext_iff]
  refine ⟨?_, ?_, ?_⟩ <;> (simp; try norm_num)

/-- With n_frames = 1 and const_speed = false the sampled position list is
the single get_positions value at the first linspace node. -/
theorem ellPositions_one (c : TrigCtx K) (e : Eig3 K) (views : List (View K))
    (zv zp : K) :
    ellPositions c e views 1 false zv zp =
      [ellGetPos c e views zv zp
        (0 + (c.twoPi - 0) * ((0 : ℕ) : K) / (((2 : ℕ) : K) - 1))] :=
  rfl

theorem ellEx_positions :
    ellPositions ⟨Real.sqrt, Real.cos, Real.sin, Real.log, Real.exp,
        2 * Real.pi⟩ ellExEig ellExViews 1 false 0 0 =
      [(⟨343/215, 0, 0⟩ : Vec3 ℝ)] := by
  rw [ellPositions_one]
  rw [List.cons.injEq]
  refine ⟨?_, rfl⟩
  simp only [ellGetPos]
  rw [ellEx_low, ellEx_high]
  rw [Vec3.ext_iff]
  refine ⟨?_, ?_, ?_⟩ <;>
    (simp [Real.cos_zero, Real.sin_zero]; try norm_num)

theorem ellEx_up :
    ellUp ⟨Real.sqrt, Real.cos, Real.sin, Real.log, Real.exp, 2 * Real.pi⟩
      ellExEig ellExViews = (⟨0, 1, 0⟩ : Vec3 ℝ) := by
  have hau0 : vmean (((ellPca ellExEig ellExViews).1).map
      (fun p => Mat3.col1 p.lin)) = (⟨0, 1, 0⟩ : Vec3 ℝ) := by
    rw [ellEx_pca1]
    rw [Vec3.ext_iff]
    refine ⟨?_, ?_, ?_⟩ <;>
      (simp [vmean, vsum, List.foldr, Mat3.col1]; try norm_num)
  have hau : ellAvgUp ⟨Real.sqrt, Real.cos, Real.sin, Real.log, Real.exp,
      2 * Real.pi⟩ ellExEig ellExViews = (⟨0, 1, 0⟩ : Vec3 ℝ) := by
    simp only [ellAvgUp]
    rw [hau0]
    rw [show Vec3.dot (⟨0, 1, 0⟩ : Vec3 ℝ) ⟨0, 1, 0⟩ = 1 by
      simp [Vec3.dot]]
    rw [Real.sqrt_one]
    rw [Vec3.ext_iff]
    refine ⟨?_, ?_, ?_⟩ <;> simp
  simp only [ellUp]
  rw [hau]
  rw [show vabs (⟨0, 1, 0⟩ : Vec3 ℝ) = ⟨0, 1, 0⟩ by simp [vabs]]
  rw [show argmax3 (⟨0, 1, 0⟩ : Vec3 ℝ) = 1 by
    unfold argmax3
    norm_num]
  rw [show comp3 (⟨0, 1, 0⟩ : Vec3 ℝ) 1 = 1 from rfl]
  rw [show npSign (1 : ℝ) = 1 by
    unfold npSign
    norm_num]
  rw [show stdBasis 1 = (⟨0, 1, 0⟩ : Vec3 ℝ) from rfl]
  rw [Vec3.ext_iff]
  refine ⟨?_, ?_, ?_⟩ <;> simp

/-- Nondegeneracy of the single sampled position: it differs from the
focus centre and the up hint is not parallel to the forward axis. -/
theorem ellEx_hpos :
    ∀ p ∈ ellPositions ⟨Real.sqrt, Real.cos, Real.sin, Real.log, Real.exp,
        2 * Real.pi⟩ ellExEig ellExViews 1 false 0 0,
      p - ellCenter ellExEig ellExViews ≠ 0 ∧
      Vec3.cross (ellUp ⟨Real.sqrt, Real.cos, Real.sin, Real.log, Real.exp,
        2 * Real.pi⟩ ellExEig ellExViews)
        (p - ellCenter ellExEig ellExViews) ≠ 0 := by
  intro p hp
  rw [ellEx_positions, List.mem_singleton] at hp
  subst hp
  rw [ellEx_center, ellEx_up]
  constructor
  · intro hcon
    rw [Vec3.ext_iff] at hcon
    simp only [Vec3.zero_def] at hcon
    norm_num at hcon
  · intro hcon
    rw [Vec3.ext_iff] at hcon
    simp only [Vec3.zero_def] at hcon
    norm_num [Vec3.cross] at hcon

theorem ellEx_hV :
    Mat3.tr (ellExEig : Eig3 K).vec * (ellExEig : Eig3 K).vec = 1 :=
  Mat3.orth_one

/-- C6 counterexample: on a valid three-view input whose PCA scale factor
is 1/2, the single pose returned by generate_ellipse_path has a 3x3 block
whose columns are not orthonormal (its Gram matrix is (1/4) times the
identity). -/
theorem generate_ellipse_path_scaled_orth_cex :
    (ellExEig : Eig3 ℝ).Valid (pcaCov (ellPoses ellExViews)) ∧
    ¬ (∀ rp ∈ generate_ellipse_path
        ⟨Real.sqrt, Real.cos, Real.sin, Real.log, Real.exp, 2 * Real.pi⟩
        ellExEig ellExViews 1 false 0 0, rp.lin.Orth) := by
  constructor
  · constructor
    · exact Mat3.orth_one
    · rw [ellEx_cov]
      show Mat3.diag (8 : ℝ) 6 0 = 1 * Mat3.diag 8 6 0 * Mat3.tr 1
      rw [Mat3.one_mul]
      rw [show Mat3.tr (1 : Mat3 ℝ) = 1 from rfl]
      rw [Mat3.mul_one]
  · intro hall
    have hmem : ellRenderOne
        ⟨Real.sqrt, Real.cos, Real.sin, Real.log, Real.exp, 2 * Real.pi⟩
        (transform_poses_pca ellExEig (ellPoses ellExViews)).2
        (ellCenter ellExEig ellExViews)
        (ellUp ⟨Real.sqrt, Real.cos, Real.sin, Real.log, Real.exp,
          2 * Real.pi⟩ ellExEig ellExViews)
        (⟨343/215, 0, 0⟩ : Vec3 ℝ) ∈
        generate_ellipse_path
          ⟨Real.sqrt, Real.cos, Real.sin, Real.log, Real.exp, 2 * Real.pi⟩
          ellExEig ellExViews 1 false 0 0 := by
      unfold generate_ellipse_path
      rw [ellEx_positions]
      rw [List.map_cons, List.map_nil]
      exact List.mem_singleton.mpr rfl
    have horth := hall _ hmem
    have h2 := Mat3.mul_eq_one_of_mul_eq_one horth
    have hz := ellEx_hpos (⟨343/215, 0, 0⟩ : Vec3 ℝ)
      (by rw [ellEx_positions]; exact List.mem_singleton.mpr rfl)
    have hvm : Mat3.tr (viewmatrix Real.sqrt
        ((⟨343/215, 0, 0⟩ : Vec3 ℝ) - ellCenter ellExEig ellExViews)
        (ellUp ⟨Real.sqrt, Real.cos, Real.sin, Real.log, Real.exp,
          2 * Real.pi⟩ ellExEig ellExViews) ⟨343/215, 0, 0⟩).lin *
        (viewmatrix Real.sqrt
          ((⟨343/215, 0, 0⟩ : Vec3 ℝ) - ellCenter ellExEig ellExViews)
          (ellUp ⟨Real.sqrt, Real.cos, Real.sin, Real.log, Real.exp,
            2 * Real.pi⟩ ellExEig ellExViews) ⟨343/215, 0, 0⟩).lin = 1 :=
      viewmatrix_orth hz.1 (cross_normalize_ne_zero hz.1 hz.2)
    have h3 := ellRenderOne_lin_scaled_orth
      ⟨Real.sqrt, Real.cos, Real.sin, Real.log, Real.exp, 2 * Real.pi⟩
      ellEx_hV ellEx_hM (ellCenter ellExEig ellExViews)
      (ellUp ⟨Real.sqrt, Real.cos, Real.sin, Real.log, Real.exp,
        2 * Real.pi⟩ ellExEig ellExViews)
      (⟨343/215, 0, 0⟩ : Vec3 ℝ) hvm
    rw [ellEx_scale, h2] at h3
    have hx := congrArg (fun q : Mat3 ℝ => q.r0.x) h3
    simp only [Mat3.one_def, Vec3.smul_def, Mat3.smul_def_mat] at hx
    norm_num at hx

/-- Witness for the amended C6 at the concrete three-view input. -/
theorem generate_ellipse_path_scaled_orth_witness :
    ((⟨Real.sqrt, Real.cos, Real.sin, Real.log, Real.exp, 2 * Real.pi⟩ :
        TrigCtx ℝ).sqrt = Real.sqrt) ∧
    (Mat3.tr (ellExEig : Eig3 ℝ).vec * ellExEig.vec = 1) ∧
    (0 < maxAbsT (pcaRec1 ellExEig (ellPoses (ellExViews : List (View ℝ))))) ∧
    (∀ p ∈ ellPositions ⟨Real.sqrt, Real.cos, Real.sin, Real.log, Real.exp,
        2 * Real.pi⟩ ellExEig ellExViews 1 false 0 0,
      p - ellCenter ellExEig ellExViews ≠ 0 ∧
      Vec3.cross (ellUp ⟨Real.sqrt, Real.cos, Real.sin, Real.log, Real.exp,
        2 * Real.pi⟩ ellExEig ellExViews)
        (p - ellCenter ellExEig ellExViews) ≠ 0) ∧
    ∀ rp ∈ generate_ellipse_path ⟨Real.sqrt, Real.cos, Real.sin, Real.log,
        Real.exp, 2 * Real.pi⟩ ellExEig ellExViews 1 false 0 0,
      rp.lin * Mat3.tr rp.lin =
        (pcaScale ellExEig (ellPoses ellExViews) : ℝ) ^ 2 • (1 : Mat3 ℝ) :=
  ⟨rfl, ellEx_hV, ellEx_hM, ellEx_hpos,
    generate_ellipse_path_scaled_orth
      ⟨Real.sqrt, Real.cos, Real.sin, Real.log, Real.exp, 2 * Real.pi⟩ rfl
      ellExEig ellExViews 1 false 0 0 ellEx_hV ellEx_hM ellEx_hpos⟩

end PoseUtils
